import Mathlib

/-!
Verification development for the quote-validation engine of the
legal-research-plugin repository (scripts/vq_matcher.py,
scripts/run_quote_validation.py, scripts/vq_annotator.py).

Shallow embedding conventions:
* Python strings are `List ℕ` of Unicode code points (`Str`).
* `difflib.SequenceMatcher(None, a, b).ratio()` is embedded exactly
  (b2j chain building, autojunk popularity purge, longest-match search
  with the j2len row dictionary, the two non-junk extension loops, the
  recursive block decomposition), computing the total matched size as a
  natural number and the ratio as an exact rational.  Since `isjunk` is
  `None` at the only call site, `bjunk` is empty, so the two
  junk-extension loops of `find_longest_match` never fire and are
  omitted; the two plain extension `while` loops are rendered as
  common-prefix walks over the corresponding slices.
* `unicodedata.normalize("NFC", ·)` is modelled by the standard NFC
  algorithm (canonical decomposition, canonical ordering, canonical
  composition) over a documented finite table that covers every
  character class the engine manipulates (ASCII, the characters
  replaced by `normalize_text`, acute/dot-above combining marks and
  their Latin precompositions).  Hangul composition and the remainder
  of the Unicode tables are outside the model.
* Python floats are modelled by exact rationals; `int(n * 0.8)` and
  `int(n * 1.2)` equal `4*n/5` and `6*n/5` in ℕ (verified for every
  n ≤ 10^6), and `round(x, 3)` is round-half-to-even at 3 decimals.
-/

set_option maxRecDepth 100000
set_option maxHeartbeats 16000000

namespace VQ

/-- Python strings as lists of Unicode code points. -/
abbrev Str := List ℕ

/-- Convert a Lean string literal to the code-point representation. -/
def strOf (s : String) : Str := s.data.map Char.toNat

/-- Whitespace as matched by Python's `\s` regex class and `str.strip()`
on `str` inputs (the CPython Unicode whitespace set). -/
def pyIsSpace (c : ℕ) : Bool :=
  (9 ≤ c ∧ c ≤ 13) ∨ (28 ≤ c ∧ c ≤ 32) ∨ c = 133 ∨ c = 160 ∨ c = 5760 ∨
    (8192 ≤ c ∧ c ≤ 8202) ∨ c = 8232 ∨ c = 8233 ∨ c = 8239 ∨ c = 8287 ∨ c = 12288

/-- Python `str.strip()` with no arguments. -/
def pyStrip (s : Str) : Str :=
  ((s.dropWhile (fun c => pyIsSpace c)).reverse.dropWhile (fun c => pyIsSpace c)).reverse

/-- Worker for `collapseWs`: the flag records whether the previous
character was part of a whitespace run already emitted as one space. -/
def collapseGo : Bool → Str → Str
  | _, [] => []
  | prevSp, c :: rest =>
    if pyIsSpace c then
      if prevSp then collapseGo true rest else 32 :: collapseGo true rest
    else c :: collapseGo false rest

/-- Embedding of `re.sub(r"\s+", " ", text)`: every maximal whitespace
run becomes a single space. -/
def collapseWs (s : Str) : Str := collapseGo false s

/-- Python `str.replace` for a single-character needle. -/
def pyReplace (s : Str) (c : ℕ) (r : Str) : Str :=
  s.flatMap (fun x => if x = c then r else [x])

/-- Canonical decomposition table of the scoped NFC model: Latin letters
precomposed with combining acute (U+0301) or dot above (U+0307). -/
def canonDecomp (c : ℕ) : Option (ℕ × ℕ) :=
  if c = 225 then some (97, 769)        -- á
  else if c = 233 then some (101, 769)  -- é
  else if c = 237 then some (105, 769)  -- í
  else if c = 243 then some (111, 769)  -- ó
  else if c = 250 then some (117, 769)  -- ú
  else if c = 253 then some (121, 769)  -- ý
  else if c = 7811 then some (119, 769) -- ẃ
  else if c = 193 then some (65, 769)   -- Á
  else if c = 201 then some (69, 769)   -- É
  else if c = 205 then some (73, 769)   -- Í
  else if c = 211 then some (79, 769)   -- Ó
  else if c = 218 then some (85, 769)   -- Ú
  else if c = 221 then some (89, 769)   -- Ý
  else if c = 7810 then some (87, 769)  -- Ẃ
  else if c = 7711 then some (102, 775) -- ḟ
  else if c = 7710 then some (70, 775)  -- Ḟ
  else none

/-- Canonical combining class of the scoped NFC model: the two combining
marks of the table have class 230, everything else is a starter. -/
def cccOf (c : ℕ) : ℕ := if c = 769 ∨ c = 775 then 230 else 0

/-- Canonical composition table: the inverse of `canonDecomp`. -/
def canonComp (b m : ℕ) : Option ℕ :=
  if m = 769 then
    if b = 97 then some 225 else if b = 101 then some 233
    else if b = 105 then some 237 else if b = 111 then some 243
    else if b = 117 then some 250 else if b = 121 then some 253
    else if b = 119 then some 7811 else if b = 65 then some 193
    else if b = 69 then some 201 else if b = 73 then some 205
    else if b = 79 then some 211 else if b = 85 then some 218
    else if b = 89 then some 221 else if b = 87 then some 7810
    else none
  else if m = 775 then
    if b = 102 then some 7711 else if b = 70 then some 7710 else none
  else none

/-- Canonical decomposition of a string (the table has depth one). -/
def nfcDecompose (s : Str) : Str :=
  s.flatMap (fun c => match canonDecomp c with
    | some p => [p.1, p.2]
    | none => [c])

/-- Stable insertion of a combining mark into a canonically ordered run:
walk past marks of strictly smaller class, never past a starter. -/
def insertByCcc (c : ℕ) : Str → Str
  | [] => [c]
  | d :: rest =>
    if 0 < cccOf d ∧ cccOf d < cccOf c then d :: insertByCcc c rest
    else c :: d :: rest

/-- Canonical ordering: stable sort of each maximal nonstarter run by
combining class. -/
def canonOrder : Str → Str
  | [] => []
  | c :: rest =>
    if cccOf c = 0 then c :: canonOrder rest else insertByCcc c (canonOrder rest)

/-- Canonical composition pass.  State: the pending starter, the
uncomposed marks gathered behind it (in order), and the combining class
of the last uncomposed mark (0 when none, so a mark directly after the
starter is never blocked).  Starter–starter (Hangul) composition does
not occur in the scoped table. -/
def composeGo : Option ℕ → Str → ℕ → Str → Str
  | none, _, _, [] => []
  | some l, marks, _, [] => l :: marks
  | none, _, _, c :: rest =>
    if cccOf c = 0 then composeGo (some c) [] 0 rest
    else c :: composeGo none [] 0 rest
  | some l, marks, prevCcc, c :: rest =>
    if cccOf c = 0 then (l :: marks) ++ composeGo (some c) [] 0 rest
    else if prevCcc < cccOf c then
      match canonComp l c with
      | some l2 => composeGo (some l2) marks prevCcc rest
      | none => composeGo (some l) (marks ++ [c]) (cccOf c) rest
    else composeGo (some l) (marks ++ [c]) (cccOf c) rest

/-- Scoped model of `unicodedata.normalize("NFC", s)`. -/
def nfcScoped (s : Str) : Str := composeGo none [] 0 (canonOrder (nfcDecompose s))

/-- Embedding of `normalize_text` (vq_matcher.py:16-26): NFC, quote,
dash, ligature and invisible-character replacements, whitespace
collapse, trim. -/
def normalize_text (s : Str) : Str :=
  let s1 := nfcScoped s
  let s2 := pyReplace s1 8216 [39]    -- left single quote  -> '
  let s3 := pyReplace s2 8217 [39]    -- right single quote -> '
  let s4 := pyReplace s3 8220 [34]    -- left double quote  -> "
  let s5 := pyReplace s4 8221 [34]    -- right double quote -> "
  let s6 := pyReplace s5 8212 [45]    -- em dash -> hyphen
  let s7 := pyReplace s6 8211 [45]    -- en dash -> hyphen
  let s8 := pyReplace s7 64257 [102, 105]  -- fi ligature
  let s9 := pyReplace s8 64258 [102, 108]  -- fl ligature
  let s10 := pyReplace s9 160 [32]    -- no-break space -> space
  let s11 := pyReplace s10 8203 []    -- zero-width space removed
  let s12 := pyReplace s11 8204 []    -- zero-width non-joiner removed
  let s13 := pyReplace s12 65279 []   -- BOM removed
  pyStrip (collapseWs s13)

/-- ASCII case folding; `str.lower()` restricted to the model's
alphabet (non-ASCII lowercase never produces `[a-z0-9]` characters that
`tokenize` could keep, with the usual Unicode special cases out of
scope). -/
def pyLowerChar (c : ℕ) : ℕ := if 65 ≤ c ∧ c ≤ 90 then c + 32 else c

/-- Token characters of the regex `[a-z0-9]+`. -/
def isTokChar (c : ℕ) : Bool := (97 ≤ c ∧ c ≤ 122) ∨ (48 ≤ c ∧ c ≤ 57)

/-- Worker extracting maximal `[a-z0-9]+` runs; the accumulator holds
the current run reversed. -/
def runsGo : Str → Str → List Str
  | [], cur => if cur = [] then [] else [cur.reverse]
  | c :: rest, cur =>
    if isTokChar c then runsGo rest (c :: cur)
    else if cur = [] then runsGo rest [] else cur.reverse :: runsGo rest []

/-- Embedding of `tokenize` (vq_matcher.py:29-31):
`re.findall(r"[a-z0-9]+", text.lower())`. -/
def tokenize (s : Str) : List Str := runsGo (s.map pyLowerChar) []

/-- Worker for `strip_brackets`: `none` scans plain text; `some buf`
holds (reversed) the characters read since an opening `[` that is still
unclosed.  A close emits one space for the whole span
(`re.sub(r"\[[^\]]*\]", " ", text)`); an unclosed `[` is restored as
literal text at end of input. -/
def sbGo : Str → Option Str → Str
  | [], none => []
  | [], some buf => 91 :: buf.reverse
  | c :: rest, none => if c = 91 then sbGo rest (some []) else c :: sbGo rest none
  | c :: rest, some buf =>
    if c = 93 then 32 :: sbGo rest none else sbGo rest (some (c :: buf))

/-- Embedding of `strip_brackets` (vq_matcher.py:34-36). -/
def strip_brackets (s : Str) : Str := sbGo s none

/-- Parser for the tail of `\[\s*\.\.\.\s*\]` (the part after `[`):
optional spaces, exactly three dots, optional spaces, `]`.  Returns the
rest of the input after the match. -/
def tryEB (s : Str) : Option Str :=
  match s.dropWhile (fun c => pyIsSpace c) with
  | 46 :: 46 :: 46 :: r2 =>
    match r2.dropWhile (fun c => pyIsSpace c) with
    | 93 :: r3 => some r3
    | _ => none
  | _ => none

/-- Replace every `\[\s*\.\.\.\s*\]` occurrence by NUL (fuel-driven
left-to-right scan; fuel is the input length, and every step consumes
at least one character). -/
def ebGo : ℕ → Str → Str
  | _, [] => []
  | 0, s => s
  | fuel + 1, c :: rest =>
    if c = 91 then
      match tryEB rest with
      | some r3 => 0 :: ebGo fuel r3
      | none => c :: ebGo fuel rest
    else c :: ebGo fuel rest

/-- Replace every run of three or more dots (`\.{3,}`) by NUL; the
counter holds the number of pending dots. -/
def dotsGo : ℕ → Str → Str
  | k, [] => if 3 ≤ k then [0] else List.replicate k 46
  | k, c :: rest =>
    if c = 46 then dotsGo (k + 1) rest
    else if 3 ≤ k then 0 :: c :: dotsGo 0 rest
    else List.replicate k 46 ++ c :: dotsGo 0 rest

/-- Split a list at every NUL separator. -/
def splitNul : Str → Str → List Str
  | cur, [] => [cur.reverse]
  | cur, c :: rest => if c = 0 then cur.reverse :: splitNul [] rest else splitNul (c :: cur) rest

/-- Embedding of `split_ellipsis_segments` (vq_matcher.py:39-44). -/
def split_ellipsis_segments (s : Str) : List Str :=
  let s1 := ebGo s.length s
  let s2 := dotsGo 0 s1
  ((splitNul [] s2).map pyStrip).filter (fun seg => ¬ seg = [])

/-- Scan of the substring test: try every suffix start.  Positions past
`len - needle.len` fail by length, exactly as Python's range bound
skips them. -/
def subScan (needle : Str) : Str → Bool
  | [] => false
  | c :: rest => if (c :: rest).take needle.length = needle then true else subScan needle rest

/-- Python's `needle in hay` for strings; the empty needle is contained
in everything. -/
def isSubstrOf (needle hay : Str) : Bool :=
  if needle = [] then true else subScan needle hay

/-- Embedding of `tier1_normalized_substring` (vq_matcher.py:58-60). -/
def tier1_normalized_substring (norm_opinion norm_excerpt : Str) : Bool :=
  isSubstrOf norm_excerpt norm_opinion

/-- Worker of `find_token_subsequence`: try each start index in order;
the index of the first window equal to the needle is returned. -/
def ftsGo (needle : List Str) : List Str → ℕ → Option ℕ
  | [], _ => none
  | h :: t, i => if ((h :: t).take needle.length) = needle then some i else ftsGo needle t (i + 1)

/-- Embedding of `find_token_subsequence` (vq_matcher.py:47-55), with
`none` for Python's -1. -/
def find_token_subsequence (haystack needle : List Str) : Option ℕ :=
  if needle = [] then some 0 else ftsGo needle haystack 0

/-- Ellipsis-separated, bracket-stripped, tokenized segments of an
excerpt with empty token lists dropped, as built inside
`tier2_token_sequence` (vq_matcher.py:65-70). -/
def segment_token_lists (excerpt : Str) : List (List Str) :=
  (((split_ellipsis_segments (strip_brackets excerpt)).map tokenize).filter
    (fun tl => ¬ tl = []))

/-- Cursor loop of tier 2: each segment is searched in the opinion
tokens from the cursor on, and the cursor advances past the match. -/
def tier2_go (opTokens : List Str) : ℕ → List (List Str) → Bool
  | _, [] => true
  | c, seg :: rest =>
    match find_token_subsequence (opTokens.drop c) seg with
    | none => false
    | some idx => tier2_go opTokens (c + idx + seg.length) rest

/-- Embedding of `tier2_token_sequence` (vq_matcher.py:63-80).  The two
early `return False` branches (no segments / no nonempty token lists)
collapse to the single emptiness test on the filtered token lists. -/
def tier2_token_sequence (opTokens : List Str) (excerpt : Str) : Bool :=
  let tls := segment_token_lists excerpt
  if tls = [] then false else tier2_go opTokens 0 tls

/-! ### difflib.SequenceMatcher(None, a, b), as called by tier 3 -/

/-- Association list for `b2j`: code point to its (ascending) list of
indices in `b`. -/
abbrev B2J := List (ℕ × List ℕ)

/-- Association list for a `j2len` row dictionary. -/
abbrev J2L := List (ℕ × ℕ)

/-- One `b2j.setdefault(elt, []).append(i)` step: extend the key's index
list, or append a fresh key at the end (dict insertion order). -/
def b2jIns : B2J → ℕ → ℕ → B2J
  | [], c, i => [(c, [i])]
  | (k, v) :: rest, c, i =>
    if k = c then (k, v ++ [i]) :: rest else (k, v) :: b2jIns rest c i

/-- The `__chain_b` build loop over `b` with the running index. -/
def buildB2J : Str → ℕ → B2J → B2J
  | [], _, acc => acc
  | c :: rest, i, acc => buildB2J rest (i + 1) (b2jIns acc c i)

/-- Autojunk purge of `__chain_b`: with `len(b) >= 200`, delete every
element occurring more than `len(b) // 100 + 1` times.  `isjunk` is
`None` at the call site, so there is no junk purge. -/
def purgePopular (m : B2J) (n : ℕ) : B2J :=
  if 200 ≤ n then m.filter (fun e => e.2.length ≤ n / 100 + 1) else m

/-- Dictionary lookup in `b2j` (`b2j.get(a[i], nothing)`). -/
def b2jGet : B2J → ℕ → List ℕ
  | [], _ => []
  | (k, v) :: rest, c => if k = c then v else b2jGet rest c

/-- Dictionary lookup in a `j2len` row (`j2len.get(j-1, 0)`). -/
def jGet : J2L → ℕ → ℕ
  | [], _ => 0
  | (k, v) :: rest, j => if k = j then v else jGet rest j

/-- The running best block of `find_longest_match`. -/
structure FlmBest where
  besti : ℕ
  bestj : ℕ
  bestsize : ℕ
deriving DecidableEq, Repr

/-- Inner loop of `find_longest_match` over `b2j[a[i]]`: `j < blo` is
skipped, `j >= bhi` breaks (the index lists are ascending), otherwise
`k = j2len.get(j-1, 0) + 1` extends the diagonal chain (the lookup of
`j - 1` at `j = 0` is Python's lookup of key -1, never present). -/
def flmJLoop (blo bhi i : ℕ) (old : J2L) : List ℕ → J2L → FlmBest → J2L × FlmBest
  | [], new, best => (new, best)
  | j :: js, new, best =>
    if j < blo then flmJLoop blo bhi i old js new best
    else if bhi ≤ j then (new, best)
    else
      let k := (match j with | 0 => 0 | jj + 1 => jGet old jj) + 1
      let new' := (j, k) :: new
      let best' : FlmBest := if best.bestsize < k then ⟨i + 1 - k, j + 1 - k, k⟩ else best
      flmJLoop blo bhi i old js new' best'

/-- Row loop of `find_longest_match` over `i in range(alo, ahi)`; the
rows come pre-paired with their characters `a[i]`. -/
def flmRows (b2j : B2J) (blo bhi : ℕ) : List (ℕ × ℕ) → J2L → FlmBest → FlmBest
  | [], _, best => best
  | (i, c) :: rest, j2len, best =>
    match flmJLoop blo bhi i j2len (b2jGet b2j c) [] best with
    | (new, best') => flmRows b2j blo bhi rest new best'

/-- Length of the common prefix of two lists; drives the extension
`while` loops of `find_longest_match`. -/
def commonLen : Str → Str → ℕ
  | x :: xs, y :: ys => if x = y then commonLen xs ys + 1 else 0
  | _, _ => 0

/-- Index/character pairs for `for i in range(alo, ahi): ... a[i]`. -/
def rowIdx (a : Str) (alo ahi : ℕ) : List (ℕ × ℕ) :=
  (List.range' alo (ahi - alo)).zip ((a.drop alo).take (ahi - alo))

/-- Embedding of `find_longest_match(alo, ahi, blo, bhi)` with
`isjunk = None`: the chain search, then the leftward and rightward
non-junk extension loops (each `while` loop walks plain character
equality and is computed as a common-prefix length of the adjacent
slices); the two junk-extension loops never fire since `bjunk` is
empty. -/
def find_longest_match (a b : Str) (b2j : B2J) (alo ahi blo bhi : ℕ) : FlmBest :=
  let m := flmRows b2j blo bhi (rowIdx a alo ahi) [] ⟨alo, blo, 0⟩
  let dl := commonLen ((a.take m.besti).drop alo).reverse ((b.take m.bestj).drop blo).reverse
  let m1 : FlmBest := ⟨m.besti - dl, m.bestj - dl, m.bestsize + dl⟩
  let dr := commonLen ((a.take ahi).drop (m1.besti + m1.bestsize))
    ((b.take bhi).drop (m1.bestj + m1.bestsize))
  ⟨m1.besti, m1.bestj, m1.bestsize + dr⟩

/-- Total size of the matching blocks produced by the
`get_matching_blocks` region recursion (whose queue order and
adjacent-block merging do not affect the total).  Fuel decreases per
region; the top-level call supplies more fuel than the region measure,
which shrinks strictly at each recursion. -/
def matchSumGo (a b : Str) (b2j : B2J) : ℕ → ℕ → ℕ → ℕ → ℕ → ℕ
  | 0, _, _, _, _ => 0
  | fuel + 1, alo, ahi, blo, bhi =>
    let m := find_longest_match a b b2j alo ahi blo bhi
    if m.bestsize = 0 then 0
    else
      m.bestsize +
        (if alo < m.besti ∧ blo < m.bestj then
          matchSumGo a b b2j fuel alo m.besti blo m.bestj else 0) +
        (if m.besti + m.bestsize < ahi ∧ m.bestj + m.bestsize < bhi then
          matchSumGo a b b2j fuel (m.besti + m.bestsize) ahi (m.bestj + m.bestsize) bhi else 0)

/-- Total matched size `M` of `SequenceMatcher(None, a, b)`. -/
def seqMatchTotal (a b : Str) : ℕ :=
  matchSumGo a b (purgePopular (buildB2J b 0 []) b.length)
    (a.length + b.length + 1) 0 a.length 0 b.length

/-- Embedding of `SequenceMatcher(None, a, b).ratio()`:
`_calculate_ratio(M, len(a) + len(b))`, an exact rational. -/
def seqRatioQ (a b : Str) : ℚ :=
  if a.length + b.length = 0 then 1
  else mkRat (2 * seqMatchTotal a b : ℤ) (a.length + b.length)

/-! ### Tier 3 fuzzy sliding window -/

/-- The `" ".join(tokens)` of Python. -/
def joinSpace (l : List Str) : Str := List.intercalate [32] l

/-- Window sizes examined by tier 3 for an excerpt of `n` tokens over
`opLen` opinion tokens: `range(max(5, int(n*0.8)), min(int(n*1.2) + 2,
opLen + 1))`.  For every n ≤ 10^6 the float truncations `int(n * 0.8)`
and `int(n * 1.2)` equal `4*n/5` and `6*n/5` in ℕ. -/
def tier3WindowSizes (n opLen : ℕ) : List ℕ :=
  let min_window := max 5 (4 * n / 5)
  let max_window := 6 * n / 5 + 1
  List.range' min_window (min (max_window + 1) (opLen + 1) - min_window)

/-- Inner position loop of tier 3 for one window size: update the best
ratio/window on strict improvement; return early (flag `true`) once the
updated best reaches 0.98. -/
def t3Inner (opTokens : List Str) (es : Str) (w : ℕ) :
    List ℕ → ℚ × Str → (ℚ × Str) × Bool
  | [], st => (st, false)
  | i :: is, st =>
    let wt := joinSpace ((opTokens.drop i).take w)
    let r := seqRatioQ es wt
    let st' := if st.1 < r then (r, wt) else st
    if mkRat 98 100 ≤ st'.1 then (st', true) else t3Inner opTokens es w is st'

/-- Outer window-size loop of tier 3. -/
def t3Outer (opTokens : List Str) (es : Str) : List ℕ → ℚ × Str → ℚ × Str
  | [], st => st
  | w :: ws, st =>
    match t3Inner opTokens es w (List.range (opTokens.length + 1 - w)) st with
    | (st', true) => st'
    | (st', false) => t3Outer opTokens es ws st'

/-- Embedding of `tier3_fuzzy_match` (vq_matcher.py:83-105): the best
fuzzy ratio and its window text. -/
def tier3_fuzzy_match (opTokens : List Str) (excerpt : Str) : ℚ × Str :=
  let et := tokenize (strip_brackets excerpt)
  if et = [] then (0, [])
  else t3Outer opTokens (joinSpace et) (tier3WindowSizes et.length opTokens.length) (0, [])

/-! ### The cascade -/

/-- Round-half-to-even of the exact rational `num / den` (den ≠ 0) to
an integer, computed on the numerator and denominator: `n` is the
floor, `r` the remainder, and the half case goes to the even
neighbour. -/
def rhePair (num : ℤ) (den : ℕ) : ℤ :=
  let n := num.fdiv den
  let r := num - n * den
  if 2 * r < den then n
  else if (den : ℤ) < 2 * r then n + 1
  else if n % 2 = 0 then n else n + 1

/-- Python `round(x, 3)` over the exact rational model:
round-half-to-even of `1000 * q`, divided by 1000. -/
def pyRound3 (q : ℚ) : ℚ := mkRat (rhePair (1000 * q.num) q.den) 1000

/-- Per-excerpt result record of `validate_excerpt`. -/
structure MatchResult where
  status : String
  match_tier : String
  similarity : ℚ
  best_match_preview : Str
deriving DecidableEq, Repr

/-- Embedding of `validate_excerpt` (vq_matcher.py:108-124): the
three-tier cascade over one excerpt given the opinion text and its
stored character length. -/
def validate_excerpt (opinion_text excerpt_text : Str) (opinion_length : ℕ) : MatchResult :=
  let norm_opinion := normalize_text opinion_text
  let norm_excerpt := normalize_text (strip_brackets excerpt_text)
  if tier1_normalized_substring norm_opinion norm_excerpt then
    ⟨"verified", "normalized_exact", 1, []⟩
  else
    let opinion_tokens := tokenize opinion_text
    if tier2_token_sequence opinion_tokens excerpt_text then
      ⟨"verified", "token_sequence", 1, []⟩
    else
      let br := tier3_fuzzy_match opinion_tokens excerpt_text
      if mkRat 92 100 ≤ br.1 then
        ⟨"likely_match", "fuzzy", pyRound3 br.1, br.2.take 200⟩
      else if mkRat 85 100 ≤ br.1 then
        ⟨"possible_match", "fuzzy", pyRound3 br.1, br.2.take 200⟩
      else if 49500 ≤ opinion_length then
        ⟨"not_found_truncated", "none", pyRound3 br.1, br.2.take 200⟩
      else
        ⟨"not_found", "none", pyRound3 br.1, br.2.take 200⟩

/-- Per-excerpt record emitted by the matcher script, with the excerpt
index. -/
structure MatcherRec where
  excerpt_index : ℕ
  status : String
  match_tier : String
  similarity : ℚ
  best_match_preview : Str
deriving DecidableEq, Repr

/-- Loop body of `main` in vq_matcher.py (lines 136-144) over one
enumerated excerpt: blank excerpts are skipped without entering the
cascade. -/
def matcherStep (opinion_text : Str) (opinion_length : ℕ) (i : ℕ) (excerpt_text : Str) :
    MatcherRec :=
  if pyStrip excerpt_text = [] then ⟨i, "skipped", "none", 0, []⟩
  else
    let r := validate_excerpt opinion_text excerpt_text opinion_length
    ⟨i, r.status, r.match_tier, r.similarity, r.best_match_preview⟩

/-- Embedding of the result list built by `main` in vq_matcher.py:
`opinion_length = len(opinion_text)`, one record per excerpt in order. -/
def matcherMain (opinion_text : Str) (excerpts : List Str) : List MatcherRec :=
  (excerpts.enum.map (fun p => matcherStep opinion_text opinion_text.length p.1 p.2))

/-! ### Orchestrator (run_quote_validation.py)

The orchestrator's I/O boundary is modelled by data: each case carries
the outcome of the opinion-file lookup (`OpinionFile`, with the byte
size that `os.path.getsize` reports) and the environmental outcome of
the matcher subprocess (`MatcherRun`); a crash stands for a non-zero
exit status or a raised exception in `run_matcher`.  Excerpts arrive
already normalized to their text fields (state_io.normalize_excerpts).
-/

/-- Result of the opinion-file lookup for one case. -/
inductive OpinionFile
  | absent
  | present (text : Str) (bytes : ℕ)
deriving DecidableEq

/-- Environmental outcome of the matcher subprocess for one case. -/
inductive MatcherRun
  | ok
  | crashed
deriving DecidableEq

/-- One analyzed case as the orchestrator sees it. -/
structure CaseInput where
  cluster_id : String
  case_name : String
  excerpts : List Str
  file : OpinionFile
  run : MatcherRun
deriving DecidableEq

/-- The check of `check_opinion_files`: the opinion file exists and has
at least 1000 bytes. -/
def casePresent (c : CaseInput) : Bool :=
  match c.file with
  | .absent => false
  | .present _ bytes => 1000 ≤ bytes

/-- Text of a present opinion file (unused in the absent branch). -/
def caseText (c : CaseInput) : Str :=
  match c.file with
  | .absent => []
  | .present text _ => text

/-- Byte size reported for the case's opinion file. -/
def caseBytes (c : CaseInput) : ℕ :=
  match c.file with
  | .absent => 0
  | .present _ bytes => bytes

/-- Embedding of `run_matcher` (run_quote_validation.py:45-69): empty
excerpt lists short-circuit; a successful run returns the matcher
script's records; a failure returns the `not_found`/`error` fallback
records, one per excerpt, and surfaces a warning (the Boolean models
the stderr message). -/
def run_matcher (text : Str) (excerpts : List Str) (run : MatcherRun) :
    List MatcherRec × Bool :=
  if excerpts = [] then ([], false)
  else
    match run with
    | .ok => (matcherMain text excerpts, false)
    | .crashed => (excerpts.enum.map (fun p => ⟨p.1, "not_found", "error", 0, []⟩), true)

/-- Per-excerpt record assembled by the orchestrator's main loop. -/
structure ResultRec where
  cluster_id : String
  case_name : String
  excerpt_index : ℕ
  excerpt_preview : Str
  excerpt_text : Str
  status : String
  match_tier : String
  similarity : ℚ
  best_match_preview : Str
deriving DecidableEq

/-- The six counters of the validation summary plus the total. -/
structure Summary where
  total : ℕ
  verified : ℕ
  likely_match : ℕ
  possible_match : ℕ
  not_found : ℕ
  not_found_truncated : ℕ
  skipped : ℕ
deriving DecidableEq

/-- Zero-initialized summary (run_quote_validation.py:122-123). -/
def summaryZero : Summary := ⟨0, 0, 0, 0, 0, 0, 0⟩

/-- One `summary["total"] += 1; if status in summary: summary[status] += 1`
step. -/
def bumpStatus (s : Summary) (st : String) : Summary :=
  let s := { s with total := s.total + 1 }
  if st = "verified" then { s with verified := s.verified + 1 }
  else if st = "likely_match" then { s with likely_match := s.likely_match + 1 }
  else if st = "possible_match" then { s with possible_match := s.possible_match + 1 }
  else if st = "not_found" then { s with not_found := s.not_found + 1 }
  else if st = "not_found_truncated" then { s with not_found_truncated := s.not_found_truncated + 1 }
  else if st = "skipped" then { s with skipped := s.skipped + 1 }
  else s

/-- Records produced for one case by the orchestrator loop
(run_quote_validation.py:126-184), together with whether a matcher
warning was surfaced.  The missing-opinion branch marks every excerpt
`not_found_truncated`; otherwise matcher records are post-processed
with the size-based `not_found` reclassification. -/
def caseRecords (c : CaseInput) : List ResultRec × Bool :=
  if casePresent c then
    let mr := run_matcher (caseText c) c.excerpts c.run
    (mr.1.map (fun m =>
      let status := if m.status = "not_found" ∧ 49500 ≤ caseBytes c
        then "not_found_truncated" else m.status
      let ex_text := if m.excerpt_index < c.excerpts.length
        then c.excerpts.getD m.excerpt_index [] else []
      ⟨c.cluster_id, c.case_name, m.excerpt_index, ex_text.take 80, ex_text,
        status, m.match_tier, m.similarity, m.best_match_preview⟩), mr.2)
  else
    (c.excerpts.enum.map (fun p =>
      ⟨c.cluster_id, c.case_name, p.1, p.2.take 80, p.2,
        "not_found_truncated", "none", 0, []⟩), false)

/-- Orchestrator pass over all cases: cases without excerpts are
filtered out first; records accumulate in case order, the summary is
bumped once per record, and warned cases are collected.  A crashed case
contributes its fallback records and processing continues with the
remaining cases. -/
def orchestrate (cases : List CaseInput) :
    List ResultRec × Summary × List String :=
  let cs := cases.filter (fun c => ¬ c.excerpts = [])
  let recs := cs.flatMap (fun c => (caseRecords c).1)
  let summary := recs.foldl (fun s r => bumpStatus s r.status) summaryZero
  let warned := (cs.filter (fun c => (caseRecords c).2)).map (fun c => c.cluster_id)
  (recs, summary, warned)

/-- Number of a case's records bearing one status (the per-case counts
of the run report). -/
def perCaseCount (c : CaseInput) (st : String) : ℕ :=
  ((caseRecords c).1.filter (fun r => r.status = st)).length

/-- Number of records with one status in a record list. -/
def countStatus (recs : List ResultRec) (st : String) : ℕ :=
  (recs.filter (fun r => r.status = st)).length

/-! ### HTML annotator (vq_annotator.py) -/

/-- Worker for markup stripping (`re.sub(r"<[^>]+>", " ", text)`): the
buffer holds (reversed) the characters read since an unclosed `<`; a
`>` with a nonempty buffer closes a tag and emits one space, a `>`
right after `<` leaves both literal, an unclosed `<` is restored at the
end. -/
def tagGo : Str → Option Str → Str
  | [], none => []
  | [], some buf => 60 :: buf.reverse
  | c :: rest, none => if c = 60 then tagGo rest (some []) else c :: tagGo rest none
  | c :: rest, some buf =>
    if c = 62 then
      match buf with
      | [] => 60 :: 62 :: tagGo rest none
      | _ => 32 :: tagGo rest none
    else tagGo rest (some (c :: buf))

/-- Decimal digits of a natural number (for numeric entities and
percentage labels). -/
def natDigits : ℕ → ℕ → Str
  | 0, _ => []
  | fuel + 1, n => if n < 10 then [48 + n] else natDigits fuel (n / 10) ++ [48 + n % 10]

/-- Decimal rendering of a natural number. -/
def natToStr (n : ℕ) : Str := natDigits (n + 1) n

/-- Decimal rendering of an integer. -/
def intToStr (i : ℤ) : Str :=
  if i < 0 then 45 :: natToStr i.natAbs else natToStr i.natAbs

/-- Value of a decimal digit string, `none` if empty or non-digit. -/
def decValGo : Str → ℕ → Option ℕ
  | [], acc => some acc
  | c :: rest, acc => if 48 ≤ c ∧ c ≤ 57 then decValGo rest (acc * 10 + (c - 48)) else none

/-- Scoped model of `html.unescape`: the five core named entities and
semicolon-terminated decimal numeric references (the full HTML5 entity
table is outside the model). -/
def unescGo : ℕ → Str → Str
  | _, [] => []
  | 0, s => s
  | fuel + 1, c :: rest =>
    if c = 38 then
      match (rest.takeWhile (fun d => ¬ d = 59)), (rest.dropWhile (fun d => ¬ d = 59)) with
      | name, 59 :: rest2 =>
        if name = strOf "amp" then 38 :: unescGo fuel rest2
        else if name = strOf "lt" then 60 :: unescGo fuel rest2
        else if name = strOf "gt" then 62 :: unescGo fuel rest2
        else if name = strOf "quot" then 34 :: unescGo fuel rest2
        else if name = strOf "apos" then 39 :: unescGo fuel rest2
        else
          match name with
          | 35 :: digits =>
            match decValGo digits 0 with
            | some v => v :: unescGo fuel rest2
            | none => c :: unescGo fuel rest
          | _ => c :: unescGo fuel rest
      | _, _ => c :: unescGo fuel rest
    else c :: unescGo fuel rest

/-- Scoped `html.unescape`. -/
def htmlUnescape (s : Str) : Str := unescGo s.length s

/-- Embedding of `normalize_for_comparison` (vq_annotator.py:14-18). -/
def normalize_for_comparison (s : Str) : Str :=
  pyStrip (collapseWs (htmlUnescape (tagGo s none)))

/-- Embedding of `html.escape(s)` with its default `quote=True`. -/
def htmlEscape (s : Str) : Str :=
  s.flatMap (fun c =>
    if c = 38 then strOf "&amp;"
    else if c = 60 then strOf "&lt;"
    else if c = 62 then strOf "&gt;"
    else if c = 34 then strOf "&quot;"
    else if c = 39 then strOf "&#x27;"
    else [c])

/-- Candidate scan of `find_best_match` (vq_annotator.py:21-42) over the
enumerated unconsumed results: empty excerpt texts are skipped; mutual
containment scores the full normalized length, otherwise containment of
the first 60 characters scores 60; the best strictly larger overlap
wins, earliest first. -/
def fbmGo (bq : Str) : List (ℕ × ResultRec) → Option (ℕ × ℕ) → Option (ℕ × ℕ)
  | [], best => best
  | (i, r) :: rest, best =>
    let preview := r.excerpt_text.map pyLowerChar
    if preview = [] then fbmGo bq rest best
    else
      let np := (pyStrip (collapseWs preview)).map pyLowerChar
      let bestOv := match best with | none => 0 | some b => b.2
      if isSubstrOf np bq ∨ isSubstrOf bq np then
        if bestOv < np.length then fbmGo bq rest (some (i, np.length))
        else fbmGo bq rest best
      else
        let sp := np.take 60
        if (¬ sp = []) ∧ isSubstrOf sp bq then
          if bestOv < sp.length then fbmGo bq rest (some (i, sp.length))
          else fbmGo bq rest best
        else fbmGo bq rest best

/-- Index (into the full result list) of the best unconsumed match for
one blockquote body, mirroring `find_best_match` plus the identity
recovery `next(i for i, r in enumerate(results) if r is best)`. -/
def find_best_match (bq_raw : Str) (results : List ResultRec) (used : List ℕ) : Option ℕ :=
  let norm_bq := (normalize_for_comparison bq_raw).map pyLowerChar
  (fbmGo norm_bq (results.enum.filter (fun p => ¬ p.1 ∈ used)) none).map (fun b => b.1)

/-- CSS class of `STATUS_CONFIG` (vq_annotator.py:45-51). -/
def statusCss (st : String) : Option Str :=
  if st = "verified" then some (strOf "quote-verified")
  else if st = "likely_match" then some (strOf "quote-likely")
  else if st = "possible_match" then some (strOf "quote-possible")
  else if st = "not_found_truncated" then some (strOf "quote-truncated")
  else if st = "not_found" then some (strOf "quote-not-found")
  else none

/-- Badge color of `STATUS_CONFIG`. -/
def statusColor (st : String) : Str :=
  if st = "verified" then strOf "#27ae60"
  else if st = "likely_match" then strOf "#6b8e23"
  else if st = "possible_match" then strOf "#e67e22"
  else if st = "not_found_truncated" then strOf "#888"
  else strOf "#e74c3c"

/-- Label of `STATUS_CONFIG` with the percentage substituted (the
source stores a format template and applies `.format(pct=pct)`). -/
def statusLabel (st : String) (pct : ℤ) : Str :=
  if st = "verified" then strOf "[Verified]"
  else if st = "likely_match" then strOf "[Likely Match — " ++ intToStr pct ++ strOf "%]"
  else if st = "possible_match" then strOf "[Unverified — " ++ intToStr pct ++ strOf "%]"
  else if st = "not_found_truncated" then strOf "[Unverified — opinion truncated]"
  else strOf "[UNVERIFIED — " ++ intToStr pct ++ strOf "%]"

/-- Python `int()` truncation toward zero of the rational `num / den`
(den ≠ 0), computed on the numerator and denominator. -/
def pyIntPair (num : ℤ) (den : ℕ) : ℤ :=
  if 0 ≤ num then ((num.toNat / den : ℕ) : ℤ) else -(((-num).toNat / den : ℕ) : ℤ)

/-- The percentage `int(similarity * 100)` of `build_annotation`. -/
def pctOf (q : ℚ) : ℤ := pyIntPair (100 * q.num) q.den

/-- Embedding of `build_annotation` (vq_annotator.py:54-73): the styled
badge span, bold for `not_found` and `possible_match`, plus the
collapsible closest-match panel for `not_found` with a preview. -/
def buildAnnotStr (r : ResultRec) : Str :=
  match statusCss r.status with
  | none => []
  | some _ =>
    let pct := pctOf r.similarity
    let label := statusLabel r.status pct
    let bold := if r.status = "not_found" ∨ r.status = "possible_match"
      then strOf " font-weight: bold;" else []
    let span := strOf "<span style=\x22color: " ++ statusColor r.status ++
      strOf "; font-size: 0.8em; font-style: normal;" ++ bold ++
      strOf "\x22>" ++ label ++ strOf "</span>"
    if r.status = "not_found" ∧ ¬ r.best_match_preview = [] then
      span ++ strOf "\n<details style=\x22margin-top: 0.3em; font-size: 0.85em;\x22>" ++
        strOf "<summary style=\x22color: #e74c3c; cursor: pointer;\x22>Show closest match in opinion</summary>" ++
        strOf "<p style=\x22color: #666; font-style: normal; padding: 0.5em; background: #f9f9f9; " ++
        strOf "border-radius: 4px;\x22>" ++ htmlEscape (r.best_match_preview.take 200) ++
        strOf "...</p></details>"
    else span

/-- Scanner for one `class="..."` attribute occurrence: returns the
text before it, the quoted value, and the rest after the closing
quote. -/
def findClassAttr : ℕ → Str → Option (Str × Str × Str)
  | 0, _ => none
  | _, [] => none
  | fuel + 1, c :: rest =>
    if (c :: rest).take 7 = strOf "class=\x22" then
      let after := (c :: rest).drop 7
      match (after.takeWhile (fun d => ¬ d = 34)), (after.dropWhile (fun d => ¬ d = 34)) with
      | v, 34 :: rest2 => some ([], v, rest2)
      | _, _ => none
    else
      match findClassAttr fuel rest with
      | some (pre, v, rest2) => some (c :: pre, v, rest2)
      | none => none

/-- Embedding of `re.sub(r'class="([^"]*)"', f'class="\1 css"', tag)`:
every class attribute gains the status class. -/
def classSub : ℕ → Str → Str → Str
  | 0, s, _ => s
  | fuel + 1, s, css =>
    match findClassAttr s.length s with
    | none => s
    | some (pre, v, rest2) =>
      pre ++ strOf "class=\x22" ++ v ++ [32] ++ css ++ [34] ++ classSub fuel rest2 css

/-- Embedding of the opening-tag rewrite in `replace_blockquote`
(vq_annotator.py:89-94): merge into an existing class attribute, else
insert a fresh one right after `<blockquote`. -/
def injectClass (tag : Str) (st : String) : Str :=
  let css := (statusCss st).getD []
  if isSubstrOf (strOf "class=") tag then classSub tag.length tag css
  else strOf "<blockquote class=\x22" ++ css ++ [34] ++ tag.drop 11

/-- Parse `<blockquote(?:\s[^>]*)?>` at the start of the input:
either `>` directly after the tag name, or a whitespace character
followed by a greedy run of non-`>` characters and `>`.  Returns the
matched opening tag and the rest. -/
def parseOpenTag (s : Str) : Option (Str × Str) :=
  if s.take 11 = strOf "<blockquote" then
    match s.drop 11 with
    | 62 :: rest => some (strOf "<blockquote>", rest)
    | c :: rest =>
      if pyIsSpace c then
        match (rest.takeWhile (fun d => ¬ d = 62)), (rest.dropWhile (fun d => ¬ d = 62)) with
        | attrs, 62 :: rest2 => some (strOf "<blockquote" ++ c :: attrs ++ [62], rest2)
        | _, _ => none
      else none
    | [] => none
  else none

/-- Split at the first `</blockquote>`: the non-greedy `(.*?)` body and
the rest after the closing tag. -/
def splitAtClose : ℕ → Str → Option (Str × Str)
  | 0, _ => none
  | _, [] => none
  | fuel + 1, c :: rest =>
    if (c :: rest).take 13 = strOf "</blockquote>" then some ([], (c :: rest).drop 13)
    else
      match splitAtClose fuel rest with
      | some (body, rest2) => some (c :: body, rest2)
      | none => none

/-- Leftmost match of the blockquote pattern: plain text before the
match, the opening tag, the body, and the rest after `</blockquote>`.
A candidate opening tag with no closing tag anywhere to its right ends
the scan (no later start can close either). -/
def findBQ : ℕ → Str → Option (Str × Str × Str × Str)
  | 0, _ => none
  | _, [] => none
  | fuel + 1, c :: rest =>
    match parseOpenTag (c :: rest) with
    | some (tag, after) =>
      match splitAtClose after.length after with
      | some (body, rest2) => some ([], tag, body, rest2)
      | none => none
    | none =>
      match findBQ fuel rest with
      | some (pre, tag, body, rest2) => some (c :: pre, tag, body, rest2)
      | none => none

/-- Trace entry for one rendered blockquote: the original full block
text, the rendered replacement, and the chosen result index (if any). -/
structure BlockTrace where
  original : Str
  rendered : Str
  chosen : Option ℕ
deriving DecidableEq

/-- Worker of `annotate_html` (vq_annotator.py:76-98): process each
regex match in document order; an unmatched block is emitted verbatim
(`return match.group(0)`), a matched block gains the status class and
the appended annotation, and its result index joins the consumed set. -/
def annotGo (results : List ResultRec) : ℕ → Str → List ℕ → Str × List ℕ × List BlockTrace
  | 0, s, used => (s, used, [])
  | fuel + 1, s, used =>
    match findBQ s.length s with
    | none => (s, used, [])
    | some (pre, tag, body, rest) =>
      let close := strOf "</blockquote>"
      let orig := tag ++ body ++ close
      match find_best_match body results used with
      | none =>
        let out := annotGo results fuel rest used
        (pre ++ orig ++ out.1, out.2.1, ⟨orig, orig, none⟩ :: out.2.2)
      | some idx =>
        let r := results.getD idx ⟨"", "", 0, [], [], "", "", 0, []⟩
        let newOpen := injectClass tag r.status
        let annot := buildAnnotStr r
        let rend := newOpen ++ body ++ annot ++ close
        let out := annotGo results fuel rest (used ++ [idx])
        (pre ++ rend ++ out.1, out.2.1, ⟨orig, rend, some idx⟩ :: out.2.2)

/-- Embedding of `annotate_html`: the rewritten document. -/
def annotate_html (html : Str) (results : List ResultRec) : Str :=
  (annotGo results html.length html []).1

/-- Block trace of one annotation pass (document order). -/
def annotTrace (html : Str) (results : List ResultRec) : List BlockTrace :=
  (annotGo results html.length html []).2.2

/-! ### Spec-side definitions (for refinement claims) -/

/-- A list occurs as a contiguous run of another list at index `i`. -/
def occursAt (l : List (List ℕ)) (i : ℕ) (p : List (List ℕ)) : Prop :=
  (l.drop i).take p.length = p

/-- Cursor-based matching condition of the spec's tier-2 description
(spec §4.4): each segment occurs as a contiguous run at or after the
cursor, and the cursor advances past the matched run before the next
segment is searched. -/
def chainFrom (op : List Str) : ℕ → List (List Str) → Prop
  | _, [] => True
  | c, seg :: rest => ∃ i, c ≤ i ∧ occursAt op i seg ∧ chainFrom op (i + seg.length) rest

/-- Ordinary rounding of the rational `num / den` to the nearest
integer, `⌊num/den + 1/2⌋` computed on the pair; the spec's
`round(0.8·n)` and `round(1.2·n)` never land on a half, so the
tie-breaking rule is immaterial. -/
def specRoundPair (num : ℤ) (den : ℕ) : ℤ := (2 * num + den).fdiv (2 * den)

/-- Window-size range claimed by the spec (§4.3): `max(5, round(0.8n))`
through `round(1.2n)`, each capped by the number of opinion tokens. -/
def claimedWindowSizes (n opLen : ℕ) : List ℕ :=
  let low := min (max 5 (specRoundPair (4 * n) 5).toNat) opLen
  let high := min (specRoundPair (6 * n) 5).toNat opLen
  List.range' low (high + 1 - low)

/-! ### C10: excerpts that are entirely bracketed insertions -/

/-- C10: for every opinion and stored length, an excerpt whose raw text
is non-whitespace but whose bracket-stripped normalization is empty
passes tier 1 vacuously: the matcher emits
verified / normalized_exact / similarity 1. -/
theorem C10_bracket_only_verified (op ex : Str) (len i : ℕ)
    (hne : ¬ pyStrip ex = [])
    (hempty : normalize_text (strip_brackets ex) = []) :
    matcherStep op len i ex = ⟨i, "verified", "normalized_exact", 1, []⟩ := by
  unfold matcherStep
  rw [if_neg hne]
  unfold validate_excerpt
  rw [hempty]
  simp [tier1_normalized_substring, isSubstrOf]

/-- C10 witness: the excerpt "[emphasis added]" against an arbitrary
opinion. -/
theorem C10_bracket_only_verified_witness :
    ¬ pyStrip (strOf "[emphasis added]") = [] ∧
      matcherStep (strOf "whatever opinion") 16 0 (strOf "[emphasis added]") =
        ⟨0, "verified", "normalized_exact", 1, []⟩ :=
  ⟨by decide, C10_bracket_only_verified _ _ 16 0 (by decide) (by decide)⟩

/-! ### C2: tier-3 classification thresholds -/

/-- C2: for every excerpt that reaches tier 3 (tiers 1 and 2 failed),
the cascade classifies by the best fuzzy ratio: at least 0.92 gives
likely_match, at least 0.85 but below 0.92 gives possible_match, and
below 0.85 gives not_found for stored lengths under 49,500 and
not_found_truncated from 49,500 on. -/
theorem C2_tier3_classification (op ex : Str) (len : ℕ)
    (h1 : tier1_normalized_substring (normalize_text op)
      (normalize_text (strip_brackets ex)) = false)
    (h2 : tier2_token_sequence (tokenize op) ex = false) :
    (mkRat 92 100 ≤ (tier3_fuzzy_match (tokenize op) ex).1 →
      (validate_excerpt op ex len).status = "likely_match") ∧
    (mkRat 85 100 ≤ (tier3_fuzzy_match (tokenize op) ex).1 ∧
        (tier3_fuzzy_match (tokenize op) ex).1 < mkRat 92 100 →
      (validate_excerpt op ex len).status = "possible_match") ∧
    ((tier3_fuzzy_match (tokenize op) ex).1 < mkRat 85 100 → len < 49500 →
      (validate_excerpt op ex len).status = "not_found") ∧
    ((tier3_fuzzy_match (tokenize op) ex).1 < mkRat 85 100 → 49500 ≤ len →
      (validate_excerpt op ex len).status = "not_found_truncated") := by
  simp only [validate_excerpt, h1, h2, Bool.false_eq_true, if_false]
  refine ⟨fun hge => ?_, fun hmid => ?_, fun hlt hlen => ?_, fun hlt hlen => ?_⟩
  · rw [if_pos hge]
  · rw [if_neg (not_le.mpr hmid.2), if_pos hmid.1]
  · rw [if_neg (not_le.mpr (lt_trans hlt (by decide))),
      if_neg (not_le.mpr hlt), if_neg (by omega)]
  · rw [if_neg (not_le.mpr (lt_trans hlt (by decide))),
      if_neg (not_le.mpr hlt), if_pos hlen]

/-- C2 witness: a five-token excerpt sharing nothing with a seven-token
opinion reaches tier 3 with a ratio below 0.85 and is classified
not_found. -/
theorem C2_tier3_classification_witness :
    tier1_normalized_substring
        (normalize_text (strOf "alpha beta gamma delta epsilon zeta eta"))
        (normalize_text (strip_brackets (strOf "one two three four five"))) = false ∧
      (validate_excerpt (strOf "alpha beta gamma delta epsilon zeta eta")
        (strOf "one two three four five") 100).status = "not_found" :=
  ⟨by decide,
    (C2_tier3_classification (strOf "alpha beta gamma delta epsilon zeta eta")
        (strOf "one two three four five") 100 (by decide) (by decide)).2.2.1
      (by decide) (by decide)⟩

/-! ### C6: tier-3 window sizes -/

/-- C6 counterexample: for a five-token excerpt over seven opinion
tokens the code slides windows of sizes 5, 6 and 7, while the claimed
range `max(5, round(0.8n))..round(1.2n)` stops at 6; size 7 is examined
although the claim excludes it. -/
theorem C6_counterexample :
    (tokenize (strip_brackets (strOf "one two three four five"))).length = 5 ∧
      (tokenize (strOf "alpha beta gamma delta epsilon zeta eta")).length = 7 ∧
      tier3WindowSizes 5 7 = [5, 6, 7] ∧
      claimedWindowSizes 5 7 = [5, 6] ∧
      ¬ (tier3WindowSizes 5 7 = claimedWindowSizes 5 7) := by
  refine ⟨by decide, by decide, by decide, ?_, ?_⟩ <;> decide

/-- C6 amended: the window sizes slid by tier 3 are exactly the
integers from max(5, ⌊0.8·n⌋) up to min(⌊1.2·n⌋ + 1, number of opinion
tokens); the list is empty when the lower bound exceeds the cap. -/
theorem C6_window_sizes (n opLen s : ℕ) :
    s ∈ tier3WindowSizes n opLen ↔
      max 5 (4 * n / 5) ≤ s ∧ s < min (6 * n / 5 + 2) (opLen + 1) := by
  unfold tier3WindowSizes
  rw [List.mem_range'_1]
  omega

/-- C6 amended witness: size 7 is among the sizes for a five-token
excerpt over seven opinion tokens. -/
theorem C6_window_sizes_witness : 7 ∈ tier3WindowSizes 5 7 :=
  (C6_window_sizes 5 7 7).mpr (by decide)

/-! ### C9: the normalizer is not idempotent in general -/

/-- C9 counterexample: for the input "ﬁ" followed by combining acute
(U+FB01, U+0301), the first normalization pass replaces the ligature,
leaving "fi" plus the mark; the second pass NFC-composes the freed "i"
with the mark into "í", so normalize ∘ normalize differs from
normalize. -/
theorem C9_counterexample :
    normalize_text [64257, 769] = [102, 105, 769] ∧
      normalize_text (normalize_text [64257, 769]) = [102, 237] ∧
      ¬ normalize_text (normalize_text [64257, 769]) = normalize_text [64257, 769] := by
  refine ⟨by decide, by decide, by decide⟩

/-! ### C3: tier-2 greedy cursor matching -/

/-- A successful `ftsGo` scan yields the earliest occurrence at or
after the scan origin. -/
theorem ftsGo_some (needle : List Str) : ∀ (hay : List Str) (i0 i : ℕ),
    ftsGo needle hay i0 = some i →
      i0 ≤ i ∧ occursAt hay (i - i0) needle ∧ ∀ k < i - i0, ¬ occursAt hay k needle := by
  intro hay
  induction hay with
  | nil => intro i0 i h; simp [ftsGo] at h
  | cons h t ih =>
    intro i0 i hfts
    unfold ftsGo at hfts
    by_cases htake : (h :: t).take needle.length = needle
    · rw [if_pos htake] at hfts
      cases hfts
      exact ⟨le_refl _, by simpa [occursAt] using htake, by omega⟩
    · rw [if_neg htake] at hfts
      obtain ⟨h1, h2, h3⟩ := ih (i0 + 1) i hfts
      refine ⟨by omega, ?_, ?_⟩
      · have : i - i0 = (i - (i0 + 1)) + 1 := by omega
        rw [this]
        simpa [occursAt] using h2
      · intro k hk
        match k with
        | 0 => simpa [occursAt] using htake
        | k + 1 =>
          have := h3 k (by omega)
          simpa [occursAt] using this

/-- A failed `ftsGo` scan means the needle occurs nowhere (nonempty
needles). -/
theorem ftsGo_none (needle : List Str) (hne : needle ≠ []) :
    ∀ (hay : List Str) (i0 : ℕ), ftsGo needle hay i0 = none →
      ∀ k, ¬ occursAt hay k needle := by
  intro hay
  induction hay with
  | nil =>
    intro i0 _ k
    simp only [occursAt, List.drop_nil, List.take_nil]
    exact fun h => hne h.symm
  | cons h t ih =>
    intro i0 hfts k
    unfold ftsGo at hfts
    by_cases htake : (h :: t).take needle.length = needle
    · rw [if_pos htake] at hfts; cases hfts
    · rw [if_neg htake] at hfts
      match k with
      | 0 => simpa [occursAt] using htake
      | k + 1 =>
        have := ih (i0 + 1) hfts k
        simpa [occursAt] using this

/-- Relocation of occurrences through `List.drop`. -/
theorem occursAt_drop (op : List Str) (c k : ℕ) (seg : List Str) :
    occursAt (op.drop c) k seg ↔ occursAt op (c + k) seg := by
  simp [occursAt, List.drop_drop, Nat.add_comm]

/-- The spec's cursor condition only weakens as the cursor moves left. -/
theorem chainFrom_mono (op : List Str) : ∀ (segs : List (List Str)) (c c' : ℕ),
    c' ≤ c → chainFrom op c segs → chainFrom op c' segs := by
  intro segs
  induction segs with
  | nil => intro c c' _ _; trivial
  | cons seg rest _ =>
    intro c c' hle h
    obtain ⟨i, hci, ho, hrest⟩ := h
    exact ⟨i, le_trans hle hci, ho, hrest⟩

/-- The greedy cursor loop of tier 2 succeeds exactly when the spec's
cursor condition holds, for any cursor. -/
theorem tier2_go_iff_chainFrom (op : List Str) : ∀ (segs : List (List Str)),
    (∀ seg ∈ segs, seg ≠ []) → ∀ c,
      (tier2_go op c segs = true ↔ chainFrom op c segs) := by
  intro segs
  induction segs with
  | nil => intro _ c; simp [tier2_go, chainFrom]
  | cons seg rest ih =>
    intro hall c
    have hseg : seg ≠ [] := hall seg (List.mem_cons_self _ _)
    have hrest : ∀ s ∈ rest, s ≠ [] := fun s hs => hall s (List.mem_cons_of_mem _ hs)
    constructor
    · intro h
      unfold tier2_go at h
      unfold find_token_subsequence at h
      rw [if_neg hseg] at h
      cases hfts : ftsGo seg (op.drop c) 0 with
      | none => rw [hfts] at h; cases h
      | some idx =>
        rw [hfts] at h
        obtain ⟨_, hocc, _⟩ := ftsGo_some seg (op.drop c) 0 idx hfts
        rw [Nat.sub_zero] at hocc
        refine ⟨c + idx, Nat.le_add_right _ _, (occursAt_drop op c idx seg).mp hocc, ?_⟩
        exact ((ih hrest (c + idx + seg.length)).mp h)
    · intro h
      obtain ⟨i, hci, hocc, hrest'⟩ := h
      unfold tier2_go
      unfold find_token_subsequence
      rw [if_neg hseg]
      have hocc' : occursAt (op.drop c) (i - c) seg := by
        rw [occursAt_drop op c (i - c) seg]
        have : c + (i - c) = i := by omega
        rw [this]; exact hocc
      cases hfts : ftsGo seg (op.drop c) 0 with
      | none => exact absurd hocc' (ftsGo_none seg hseg (op.drop c) 0 hfts (i - c))
      | some idx =>
        obtain ⟨_, _, hmin⟩ := ftsGo_some seg (op.drop c) 0 idx hfts
        rw [Nat.sub_zero] at hmin
        have hidx : idx ≤ i - c := by
          by_contra hgt
          exact hmin (i - c) (by omega) hocc'
        refine (ih hrest (c + idx + seg.length)).mpr ?_
        exact chainFrom_mono op rest (i + seg.length) (c + idx + seg.length)
          (by omega) hrest'

/-- C3 counterexample: an excerpt consisting only of an ellipsis has no
nonempty segment token lists, so the spec's cursor condition holds
vacuously, yet tier 2 fails for it. -/
theorem C3_counterexample :
    ¬ (tier2_token_sequence [strOf "a"] (strOf "...") = true ↔
        chainFrom [strOf "a"] 0 (segment_token_lists (strOf "..."))) := by
  intro h
  have hsegs : segment_token_lists (strOf "...") = [] := by decide
  have hchain : chainFrom [strOf "a"] 0 (segment_token_lists (strOf "...")) := by
    rw [hsegs]; trivial
  have := h.mpr hchain
  have hfalse : tier2_token_sequence [strOf "a"] (strOf "...") = false := by decide
  rw [hfalse] at this
  cases this

/-- C3 amended: for every excerpt with at least one nonempty segment
token list, tier 2 succeeds exactly when, scanning the opinion tokens
left to right with a cursor starting at 0, each segment occurs as a
contiguous run at or after the cursor with the cursor advanced past the
matched run; an excerpt with no such segments fails tier 2 outright. -/
theorem C3_tier2_cursor_semantics (opTokens : List Str) (excerpt : Str)
    (hne : ¬ segment_token_lists excerpt = []) :
    tier2_token_sequence opTokens excerpt = true ↔
      chainFrom opTokens 0 (segment_token_lists excerpt) := by
  unfold tier2_token_sequence
  rw [if_neg hne]
  refine tier2_go_iff_chainFrom opTokens (segment_token_lists excerpt) ?_ 0
  intro seg hseg
  have := List.of_mem_filter hseg
  simpa using this

/-- C3 witness: the spec's own example excerpt and opinion; the
segments "the dog", "jumped high" chain through the opinion, so tier 2
verifies the excerpt. -/
theorem C3_tier2_cursor_semantics_witness :
    chainFrom (tokenize (strOf "the dog ran home yesterday then jumped high over the fence"))
      0 (segment_token_lists (strOf "the dog [ran] ... jumped high")) :=
  (C3_tier2_cursor_semantics
    (tokenize (strOf "the dog ran home yesterday then jumped high over the fence"))
    (strOf "the dog [ran] ... jumped high") (by decide)).mp (by decide)

/-! ### C4: blank excerpts and the orchestrator paths -/

/-- A case whose opinion file is missing, holding one whitespace-only
excerpt. -/
def c4Case : CaseInput := ⟨"cx4", "Case v Four", [[32]], .absent, .ok⟩

/-- C4 counterexample: on the missing-opinion path the orchestrator
marks even a whitespace-only excerpt `not_found_truncated`, not
`skipped`: the claim's "every orchestrator path" fails on the
missing-file branch. -/
theorem C4_counterexample :
    pyStrip [32] = [] ∧
      ((caseRecords c4Case).1.map (fun r => (r.status, r.match_tier))) =
        [("not_found_truncated", "none")] ∧
      ¬ ((caseRecords c4Case).1.map (fun r => r.status)) = ["skipped"] := by
  refine ⟨by decide, by decide, by decide⟩

/-- C4 amended: when the case's opinion file is present (at least 1000
bytes) and the matcher run succeeds, a whitespace-only excerpt yields
status skipped, tier none and similarity 0, independent of the opinion
content; on the missing-opinion path every excerpt (blank ones
included) is instead marked not_found_truncated. -/
theorem C4_whitespace_skipped (c : CaseInput) (text : Str) (bytes i : ℕ)
    (hf : c.file = .present text bytes) (hb : 1000 ≤ bytes) (hr : c.run = .ok)
    (hi : i < c.excerpts.length) (hw : pyStrip (c.excerpts.getD i []) = []) :
    ∃ r, ((caseRecords c).1)[i]? = some r ∧
      r.status = "skipped" ∧ r.match_tier = "none" ∧ r.similarity = 0 := by
  have hp : casePresent c = true := by unfold casePresent; rw [hf]; simpa using hb
  have hne : ¬ c.excerpts = [] := by
    intro h; rw [h] at hi; exact absurd hi (by simp)
  have htext : caseText c = text := by unfold caseText; rw [hf]
  have he : c.excerpts[i]? = some (c.excerpts.getD i []) := by
    rw [List.getElem?_eq_getElem hi]
    rw [List.getD_eq_getElem?_getD, List.getElem?_eq_getElem hi]
    rfl
  have hcr : (caseRecords c).1 = (matcherMain text c.excerpts).map
      (fun m =>
        let status := if m.status = "not_found" ∧ 49500 ≤ caseBytes c
          then "not_found_truncated" else m.status
        let ex_text := if m.excerpt_index < c.excerpts.length
          then c.excerpts.getD m.excerpt_index [] else []
        (⟨c.cluster_id, c.case_name, m.excerpt_index, ex_text.take 80, ex_text,
          status, m.match_tier, m.similarity, m.best_match_preview⟩ : ResultRec)) := by
    unfold caseRecords
    rw [if_pos hp]
    unfold run_matcher
    rw [if_neg hne, hr, htext]
  have hstep : matcherStep text text.length i (c.excerpts.getD i []) =
      ⟨i, "skipped", "none", 0, []⟩ := by
    unfold matcherStep
    rw [if_pos hw]
  have hm : (matcherMain text c.excerpts)[i]? =
      some (⟨i, "skipped", "none", 0, []⟩ : MatcherRec) := by
    simp only [matcherMain, List.getElem?_map, List.getElem?_enum, he, Option.map_some']
    rw [← hstep]
  rw [hcr]
  refine ⟨⟨c.cluster_id, c.case_name, i, (c.excerpts.getD i []).take 80,
    c.excerpts.getD i [], "skipped", "none", 0, []⟩, ?_, rfl, rfl, rfl⟩
  rw [List.getElem?_map, hm, Option.map_some']
  simp [hi]

/-- A case with a present opinion file and a successful matcher run,
holding one whitespace-only excerpt. -/
def c4wCase : CaseInput := ⟨"cw4", "Case v FourW", [[9, 32]], .present (strOf "op text") 1000, .ok⟩

/-- C4 amended witness: the whitespace-only excerpt of a present-file
case is skipped. -/
theorem C4_whitespace_skipped_witness :
    ∃ r, ((caseRecords c4wCase).1)[0]? = some r ∧
      r.status = "skipped" ∧ r.match_tier = "none" ∧ r.similarity = 0 :=
  C4_whitespace_skipped c4wCase (strOf "op text") 1000 0 rfl (by decide) rfl
    (by decide) (by decide)

/-! ### C5: matcher failure handling -/

/-- A case whose opinion file sits at the 49,500-byte cap and whose
matcher run crashes. -/
def c5Case : CaseInput :=
  ⟨"cx5", "Case v Five", [strOf "quoted text"], .present (strOf "opinion body") 49500, .crashed⟩

/-- C5 counterexample: when the matcher fails for a case, the fallback
records carry match_tier "error" (not "none"), and with a stored
opinion size at least 49,500 bytes the status is reclassified to
not_found_truncated (not left not_found): both parts of the claim fail
on this case. -/
theorem C5_counterexample :
    ((caseRecords c5Case).1.map (fun r => (r.status, r.match_tier))) =
        [("not_found_truncated", "error")] ∧
      (caseRecords c5Case).2 = true := by
  refine ⟨by decide, by decide⟩

/-- C5 amended: when the matcher run for a present-file case fails,
every excerpt of that case is given status not_found — reclassified to
not_found_truncated when the stored size is at least 49,500 bytes —
with match_tier "error" and similarity 0; a warning is surfaced; one
record per excerpt is still produced, and the orchestrator processes
the surrounding cases exactly as when no failure occurs, so validation
continues with the remaining cases. -/
theorem C5_crashed_case_fallback (c : CaseInput) (text : Str) (bytes : ℕ)
    (hf : c.file = .present text bytes) (hb : 1000 ≤ bytes) (hr : c.run = .crashed)
    (hne : ¬ c.excerpts = []) :
    (∀ r ∈ (caseRecords c).1,
        r.status = (if 49500 ≤ bytes then "not_found_truncated" else "not_found") ∧
        r.match_tier = "error" ∧ r.similarity = 0) ∧
      (caseRecords c).2 = true ∧
      (caseRecords c).1.length = c.excerpts.length ∧
      (∀ pre post : List CaseInput, (orchestrate (pre ++ c :: post)).1 =
        (orchestrate pre).1 ++ (caseRecords c).1 ++ (orchestrate post).1) := by
  have hp : casePresent c = true := by unfold casePresent; rw [hf]; simpa using hb
  have hbytes : caseBytes c = bytes := by unfold caseBytes; rw [hf]
  have hcr : caseRecords c =
      ((c.excerpts.enum.map (fun p => (⟨p.1, "not_found", "error", 0, []⟩ : MatcherRec))).map
        (fun m =>
          let status := if m.status = "not_found" ∧ 49500 ≤ caseBytes c
            then "not_found_truncated" else m.status
          let ex_text := if m.excerpt_index < c.excerpts.length
            then c.excerpts.getD m.excerpt_index [] else []
          ⟨c.cluster_id, c.case_name, m.excerpt_index, ex_text.take 80, ex_text,
            status, m.match_tier, m.similarity, m.best_match_preview⟩), true) := by
    unfold caseRecords
    rw [if_pos hp]
    unfold run_matcher
    rw [if_neg hne, hr]
  refine ⟨?_, ?_, ?_, ?_⟩
  · intro r hr'
    rw [hcr] at hr'
    simp only [List.map_map, List.mem_map] at hr'
    obtain ⟨p, _, hp'⟩ := hr'
    subst hp'
    rw [hbytes]
    by_cases h49 : 49500 ≤ bytes
    · simp [h49]
    · simp [h49]
  · rw [hcr]
  · rw [hcr]; simp
  · intro pre post
    unfold orchestrate
    simp only [List.filter_append, List.filter_cons, List.flatMap_append]
    simp [hne, List.flatMap_cons, List.append_assoc]

/-- C5 amended witness: the crashed 49,500-byte case produces one
"error"-tier record per excerpt, warns, and composes with surrounding
cases. -/
theorem C5_crashed_case_fallback_witness :
    (∀ r ∈ (caseRecords c5Case).1,
        r.status = (if 49500 ≤ 49500 then "not_found_truncated" else "not_found") ∧
        r.match_tier = "error" ∧ r.similarity = 0) ∧
      (caseRecords c5Case).2 = true ∧
      (caseRecords c5Case).1.length = c5Case.excerpts.length ∧
      (∀ pre post : List CaseInput, (orchestrate (pre ++ c5Case :: post)).1 =
        (orchestrate pre).1 ++ (caseRecords c5Case).1 ++ (orchestrate post).1) :=
  C5_crashed_case_fallback c5Case (strOf "opinion body") 49500 rfl (by decide) rfl (by decide)

/-! ### C7: summary counters -/

/-- Each record bumps the total exactly once. -/
theorem bump_total (s : Summary) (st : String) :
    (bumpStatus s st).total = s.total + 1 := by
  unfold bumpStatus
  split_ifs <;> rfl

/-- One bump increments the verified counter exactly for verified
records. -/
theorem bump_verified (s : Summary) (st : String) :
    (bumpStatus s st).verified = s.verified + (if st = "verified" then 1 else 0) := by
  unfold bumpStatus
  split_ifs with h1 h2 h3 h4 h5 h6 <;> simp_all

/-- One bump increments the likely_match counter exactly for
likely_match records. -/
theorem bump_likely (s : Summary) (st : String) :
    (bumpStatus s st).likely_match = s.likely_match + (if st = "likely_match" then 1 else 0) := by
  unfold bumpStatus
  split_ifs with h1 h2 h3 h4 h5 h6 <;> simp_all

/-- One bump increments the possible_match counter exactly for
possible_match records. -/
theorem bump_possible (s : Summary) (st : String) :
    (bumpStatus s st).possible_match = s.possible_match + (if st = "possible_match" then 1 else 0) := by
  unfold bumpStatus
  split_ifs with h1 h2 h3 h4 h5 h6 <;> simp_all

/-- One bump increments the not_found counter exactly for not_found
records. -/
theorem bump_not_found (s : Summary) (st : String) :
    (bumpStatus s st).not_found = s.not_found + (if st = "not_found" then 1 else 0) := by
  unfold bumpStatus
  split_ifs with h1 h2 h3 h4 h5 h6 <;> simp_all

/-- One bump increments the not_found_truncated counter exactly for
not_found_truncated records. -/
theorem bump_nft (s : Summary) (st : String) :
    (bumpStatus s st).not_found_truncated =
      s.not_found_truncated + (if st = "not_found_truncated" then 1 else 0) := by
  unfold bumpStatus
  split_ifs with h1 h2 h3 h4 h5 h6 <;> simp_all

/-- One bump increments the skipped counter exactly for skipped
records. -/
theorem bump_skipped (s : Summary) (st : String) :
    (bumpStatus s st).skipped = s.skipped + (if st = "skipped" then 1 else 0) := by
  unfold bumpStatus
  split_ifs with h1 h2 h3 h4 h5 h6 <;> simp_all

/-- Status counts distribute over cons. -/
theorem countStatus_cons (r : ResultRec) (l : List ResultRec) (st : String) :
    countStatus (r :: l) st = (if r.status = st then 1 else 0) + countStatus l st := by
  unfold countStatus
  rw [List.filter_cons]
  by_cases h : r.status = st
  · simp [h]
    omega
  · simp [h]

/-- The summary fold over a record list counts every status
exactly. -/
theorem foldl_bump_counts (l : List ResultRec) : ∀ s : Summary,
    (l.foldl (fun s r => bumpStatus s r.status) s).total = s.total + l.length ∧
    (l.foldl (fun s r => bumpStatus s r.status) s).verified = s.verified + countStatus l "verified" ∧
    (l.foldl (fun s r => bumpStatus s r.status) s).likely_match = s.likely_match + countStatus l "likely_match" ∧
    (l.foldl (fun s r => bumpStatus s r.status) s).possible_match = s.possible_match + countStatus l "possible_match" ∧
    (l.foldl (fun s r => bumpStatus s r.status) s).not_found = s.not_found + countStatus l "not_found" ∧
    (l.foldl (fun s r => bumpStatus s r.status) s).not_found_truncated = s.not_found_truncated + countStatus l "not_found_truncated" ∧
    (l.foldl (fun s r => bumpStatus s r.status) s).skipped = s.skipped + countStatus l "skipped" := by
  induction l with
  | nil => intro s; simp [countStatus]
  | cons r t ih =>
    intro s
    obtain ⟨h1, h2, h3, h4, h5, h6, h7⟩ := ih (bumpStatus s r.status)
    simp only [List.foldl_cons, List.length_cons, countStatus_cons]
    rw [h1, h2, h3, h4, h5, h6, h7, bump_total, bump_verified, bump_likely,
      bump_possible, bump_not_found, bump_nft, bump_skipped]
    omega

/-- Status counts distribute over concatenation. -/
theorem countStatus_append (a b : List ResultRec) (st : String) :
    countStatus (a ++ b) st = countStatus a st + countStatus b st := by
  unfold countStatus
  rw [List.filter_append, List.length_append]

/-- Status counts over flattened per-case records are the sums of the
per-case counts. -/
theorem countStatus_flatMap (cs : List CaseInput) (st : String) :
    countStatus (cs.flatMap (fun c => (caseRecords c).1)) st =
      (cs.map (fun c => perCaseCount c st)).sum := by
  induction cs with
  | nil => simp [countStatus]
  | cons c t ih =>
    rw [List.flatMap_cons, countStatus_append, ih, List.map_cons, List.sum_cons]
    rfl

/-- C7: after a run, each global summary counter equals the number of
result records bearing that status, and equals the sum over the
processed cases of that case's per-status count; the total counter is
the number of records. -/
theorem C7_summary_counts (cases : List CaseInput) :
    (orchestrate cases).2.1.total = (orchestrate cases).1.length ∧
    (orchestrate cases).2.1.verified = countStatus (orchestrate cases).1 "verified" ∧
    (orchestrate cases).2.1.likely_match = countStatus (orchestrate cases).1 "likely_match" ∧
    (orchestrate cases).2.1.possible_match = countStatus (orchestrate cases).1 "possible_match" ∧
    (orchestrate cases).2.1.not_found = countStatus (orchestrate cases).1 "not_found" ∧
    (orchestrate cases).2.1.not_found_truncated = countStatus (orchestrate cases).1 "not_found_truncated" ∧
    (orchestrate cases).2.1.skipped = countStatus (orchestrate cases).1 "skipped" ∧
    (orchestrate cases).2.1.verified =
      (((cases.filter (fun c => ¬ c.excerpts = [])).map (fun c => perCaseCount c "verified")).sum) ∧
    (orchestrate cases).2.1.likely_match =
      (((cases.filter (fun c => ¬ c.excerpts = [])).map (fun c => perCaseCount c "likely_match")).sum) ∧
    (orchestrate cases).2.1.possible_match =
      (((cases.filter (fun c => ¬ c.excerpts = [])).map (fun c => perCaseCount c "possible_match")).sum) ∧
    (orchestrate cases).2.1.not_found =
      (((cases.filter (fun c => ¬ c.excerpts = [])).map (fun c => perCaseCount c "not_found")).sum) ∧
    (orchestrate cases).2.1.not_found_truncated =
      (((cases.filter (fun c => ¬ c.excerpts = [])).map (fun c => perCaseCount c "not_found_truncated")).sum) ∧
    (orchestrate cases).2.1.skipped =
      (((cases.filter (fun c => ¬ c.excerpts = [])).map (fun c => perCaseCount c "skipped")).sum) := by
  have hrec : (orchestrate cases).1 =
      (cases.filter (fun c => ¬ c.excerpts = [])).flatMap (fun c => (caseRecords c).1) := rfl
  have hsum : (orchestrate cases).2.1 =
      (orchestrate cases).1.foldl (fun s r => bumpStatus s r.status) summaryZero := rfl
  obtain ⟨h1, h2, h3, h4, h5, h6, h7⟩ := foldl_bump_counts (orchestrate cases).1 summaryZero
  rw [hsum, h1, h2, h3, h4, h5, h6, h7, hrec]
  simp only [summaryZero, Nat.zero_add, true_and, and_true]
  refine ⟨?_, ?_, ?_, ?_, ?_, ?_⟩ <;> rw [countStatus_flatMap]

/-! ### C8: one result annotates at most one block -/

/-- The candidate scan only ever returns a pair from its input list (or
its initial accumulator). -/
theorem fbmGo_mem (bq : Str) : ∀ (l : List (ℕ × ResultRec)) (best : Option (ℕ × ℕ))
    (b : ℕ × ℕ), fbmGo bq l best = some b → (∃ r, (b.1, r) ∈ l) ∨ best = some b := by
  intro l
  induction l with
  | nil => intro best b h; right; simpa [fbmGo] using h
  | cons p t ih =>
    intro best b h
    have hstep : ∀ best', fbmGo bq t best' = some b →
        (best' = best ∨ best' = some (p.1, ((pyStrip (collapseWs (p.2.excerpt_text.map pyLowerChar))).map pyLowerChar).length) ∨
          best' = some (p.1, (((pyStrip (collapseWs (p.2.excerpt_text.map pyLowerChar))).map pyLowerChar).take 60).length)) →
        (∃ r, (b.1, r) ∈ p :: t) ∨ best = some b := by
      intro best' hrec hcases
      rcases ih best' b hrec with ⟨r, hr⟩ | heq
      · exact Or.inl ⟨r, List.mem_cons_of_mem _ hr⟩
      · rcases hcases with h' | h' | h'
        · rw [h'] at heq; exact Or.inr heq
        · rw [h'] at heq
          cases heq
          exact Or.inl ⟨p.2, List.mem_cons_self _ _⟩
        · rw [h'] at heq
          cases heq
          exact Or.inl ⟨p.2, List.mem_cons_self _ _⟩
    simp only [fbmGo] at h
    split_ifs at h with h1 h2 h3 h4 h5 <;>
      first
        | exact hstep _ h (Or.inl rfl)
        | exact hstep _ h (Or.inr (Or.inl rfl))
        | exact hstep _ h (Or.inr (Or.inr rfl))

/-- A chosen result index is never one already consumed. -/
theorem find_best_match_not_used (bq : Str) (results : List ResultRec)
    (used : List ℕ) (idx : ℕ) (h : find_best_match bq results used = some idx) :
    ¬ idx ∈ used := by
  unfold find_best_match at h
  obtain ⟨b, hb, hb1⟩ := Option.map_eq_some'.mp h
  rcases fbmGo_mem _ _ none b hb with ⟨r, hr⟩ | heq
  · have := List.of_mem_filter hr
    rw [hb1] at this
    simpa using this
  · cases heq

/-- The annotator worker: chosen indices avoid the incoming consumed
set, are pairwise distinct, and a block with no candidate renders
exactly as its original text. -/
theorem annotGo_inv (results : List ResultRec) : ∀ (fuel : ℕ) (s : Str) (used : List ℕ),
    (∀ i ∈ ((annotGo results fuel s used).2.2.filterMap (fun t => t.chosen)), ¬ i ∈ used) ∧
    ((annotGo results fuel s used).2.2.filterMap (fun t => t.chosen)).Nodup ∧
    (∀ t ∈ (annotGo results fuel s used).2.2, t.chosen = none → t.rendered = t.original) := by
  intro fuel
  induction fuel with
  | zero => intro s used; simp [annotGo]
  | succ n ih =>
    intro s used
    cases hfbq : findBQ s.length s with
    | none =>
      simp [annotGo, hfbq]
    | some q =>
      obtain ⟨pre, tag, body, rest⟩ := q
      cases hfind : find_best_match body results used with
      | none =>
        have hrec := ih rest used
        simp only [annotGo, hfbq, hfind]
        refine ⟨?_, ?_, ?_⟩
        · intro i hi
          simp only [List.filterMap_cons] at hi
          exact hrec.1 i hi
        · simp only [List.filterMap_cons]
          exact hrec.2.1
        · intro t ht _
          rcases List.mem_cons.mp ht with h' | h'
          · rw [h']
          · exact hrec.2.2 t h' (by assumption)
      | some idx =>
        have hrec := ih rest (used ++ [idx])
        have hnew : ¬ idx ∈ used := find_best_match_not_used body results used idx hfind
        simp only [annotGo, hfbq, hfind]
        refine ⟨?_, ?_, ?_⟩
        · intro i hi
          simp only [List.filterMap_cons] at hi
          rcases List.mem_cons.mp hi with h' | h'
          · rw [h']; exact hnew
          · have := hrec.1 i h'
            simp only [List.mem_append] at this
            exact fun hu => this (Or.inl hu)
        · simp only [List.filterMap_cons]
          refine List.nodup_cons.mpr ⟨?_, hrec.2.1⟩
          intro hmem
          exact (hrec.1 idx hmem) (by simp)
        · intro t ht hnone
          rcases List.mem_cons.mp ht with h' | h'
          · rw [h'] at hnone; cases hnone
          · exact hrec.2.2 t h' hnone

/-- C8: during one annotation pass, the chosen result indices are
pairwise distinct (once consumed, a result annotates no later block),
and every block with no candidate result is rendered exactly as its
original text. -/
theorem C8_consumed_once (html : Str) (results : List ResultRec) :
    ((annotTrace html results).filterMap (fun t => t.chosen)).Nodup ∧
    (∀ t ∈ annotTrace html results, t.chosen = none → t.rendered = t.original) := by
  have h := annotGo_inv results html.length html []
  exact ⟨h.2.1, h.2.2⟩

/-- C8 witness: a document with two blockquotes over two results; both
blocks are annotated with distinct results. -/
theorem C8_consumed_once_witness :
    ((annotTrace (strOf "<blockquote>lorem ipsum</blockquote><p>x</p><blockquote>lorem ipsum</blockquote>")
        [⟨"c", "n", 0, [], strOf "lorem ipsum", "verified", "normalized_exact", 1, []⟩,
         ⟨"c", "n", 1, [], strOf "lorem ipsum", "verified", "normalized_exact", 1, []⟩]).filterMap
      (fun t => t.chosen)).Nodup ∧
    (∀ t ∈ annotTrace (strOf "<blockquote>lorem ipsum</blockquote><p>x</p><blockquote>lorem ipsum</blockquote>")
        [⟨"c", "n", 0, [], strOf "lorem ipsum", "verified", "normalized_exact", 1, []⟩,
         ⟨"c", "n", 1, [], strOf "lorem ipsum", "verified", "normalized_exact", 1, []⟩],
      t.chosen = none → t.rendered = t.original) :=
  C8_consumed_once _ _

/-! ### C9 support: strip/collapse algebra -/

/-- Front-recursive removal of trailing whitespace (equal to the
reverse/dropWhile/reverse in `pyStrip`). -/
def rstripF : Str → Str
  | [] => []
  | c :: rest =>
    let r := rstripF rest
    if r = [] ∧ pyIsSpace c then [] else c :: r

/-- Equation lemma for `rstripF` on a cons cell. -/
theorem rstripF_cons (c : ℕ) (rest : Str) :
    rstripF (c :: rest) =
      if rstripF rest = [] ∧ pyIsSpace c = true then [] else c :: rstripF rest := rfl

/-- Appending one character either extends the kept part or is
trimmed. -/
theorem rstripF_append_single (l : Str) (c : ℕ) :
    rstripF (l ++ [c]) = if pyIsSpace c then rstripF l else l ++ [c] := by
  induction l with
  | nil =>
    by_cases h : pyIsSpace c <;> simp [rstripF, h]
  | cons d t ih =>
    show rstripF (d :: (t ++ [c])) = _
    unfold rstripF
    rw [ih]
    by_cases h : pyIsSpace c
    · simp [h]
    · simp only [h, if_false]
      have : ¬ (t ++ [c] = []) := by simp
      simp [this]

/-- The trailing strip of `pyStrip` agrees with the front recursion. -/
theorem reverse_dropWhile_reverse_eq (l : Str) :
    (l.reverse.dropWhile (fun c => pyIsSpace c)).reverse = rstripF l := by
  induction l using List.reverseRecOn with
  | nil => rfl
  | append_singleton t c ih =>
    rw [List.reverse_append, rstripF_append_single]
    simp only [List.reverse_cons, List.reverse_nil, List.nil_append, List.singleton_append,
      List.dropWhile_cons]
    by_cases h : pyIsSpace c
    · simp only [h, if_true]
      exact ih
    · simp [h]

/-- The two-sided strip as a left strip followed by the front-recursive
right strip. -/
theorem pyStrip_eq (s : Str) :
    pyStrip s = rstripF (s.dropWhile (fun c => pyIsSpace c)) := by
  unfold pyStrip
  rw [reverse_dropWhile_reverse_eq]

/-- Equation: collapsing a whitespace head emits one space only at the
start of a run. -/
theorem collapseGo_cons_space (b : Bool) (c : ℕ) (rest : Str) (h : pyIsSpace c = true) :
    collapseGo b (c :: rest) = (if b then [] else [32]) ++ collapseGo true rest := by
  cases b <;> simp [collapseGo, h]

/-- Equation: a non-space head passes through and resets the run
flag. -/
theorem collapseGo_cons_nonspace (b : Bool) (c : ℕ) (rest : Str) (h : pyIsSpace c = false) :
    collapseGo b (c :: rest) = c :: collapseGo false rest := by
  cases b <;> simp [collapseGo, h]

/-- Collapsing is idempotent at every flag. -/
theorem collapseGo_collapseGo (w : Str) : ∀ b, collapseGo b (collapseGo b w) = collapseGo b w := by
  induction w with
  | nil => intro b; rfl
  | cons c rest ih =>
    intro b
    by_cases h : pyIsSpace c
    · rw [collapseGo_cons_space b c rest h]
      cases b
      · simp only [Bool.false_eq_true, if_false, List.singleton_append]
        rw [collapseGo_cons_space false 32 (collapseGo true rest) (by decide)]
        simp only [Bool.false_eq_true, if_false, List.singleton_append]
        rw [ih true]
      · simp only [if_true, List.nil_append]
        exact ih true
    · have h' : pyIsSpace c = false := by revert h; cases pyIsSpace c <;> simp
      rw [collapseGo_cons_nonspace b c rest h']
      rw [collapseGo_cons_nonspace b c (collapseGo false rest) h']
      rw [ih false]

/-- Left-stripping after an in-run collapse equals collapsing the
left-stripped rest. -/
theorem dropWhile_collapseGo_true (rest : Str) :
    (collapseGo true rest).dropWhile (fun c => pyIsSpace c) =
      collapseGo false (rest.dropWhile (fun c => pyIsSpace c)) := by
  induction rest with
  | nil => rfl
  | cons d r ih =>
    by_cases h : pyIsSpace d
    · rw [collapseGo_cons_space true d r h]
      simp only [if_true, List.nil_append]
      rw [ih, List.dropWhile_cons_of_pos (by simpa using h)]
    · have h' : pyIsSpace d = false := by revert h; cases pyIsSpace d <;> simp
      rw [collapseGo_cons_nonspace true d r h']
      rw [List.dropWhile_cons_of_neg (by simp [h']), List.dropWhile_cons_of_neg (by simp [h'])]
      rw [collapseGo_cons_nonspace false d r h']

/-- Left strip commutes with whitespace collapse. -/
theorem dropWhile_collapseWs (w : Str) :
    (collapseWs w).dropWhile (fun c => pyIsSpace c) =
      collapseWs (w.dropWhile (fun c => pyIsSpace c)) := by
  unfold collapseWs
  cases w with
  | nil => rfl
  | cons c rest =>
    by_cases h : pyIsSpace c
    · rw [collapseGo_cons_space false c rest h]
      simp only [Bool.false_eq_true, if_false, List.singleton_append]
      rw [List.dropWhile_cons_of_pos (by decide), List.dropWhile_cons_of_pos (by simpa using h)]
      exact dropWhile_collapseGo_true rest
    · have h' : pyIsSpace c = false := by revert h; cases pyIsSpace c <;> simp
      rw [collapseGo_cons_nonspace false c rest h']
      rw [List.dropWhile_cons_of_neg (by simp [h']), List.dropWhile_cons_of_neg (by simp [h'])]
      rw [collapseGo_cons_nonspace false c rest h']

/-- Lists of whitespace only. -/
def allSpace (l : Str) : Prop := ∀ c ∈ l, pyIsSpace c = true

/-- A list right-strips to nothing exactly when it is all
whitespace. -/
theorem rstripF_eq_nil_iff (l : Str) : rstripF l = [] ↔ allSpace l := by
  induction l with
  | nil => simp [rstripF, allSpace]
  | cons c rest ih =>
    rw [rstripF_cons]
    constructor
    · intro h
      by_cases hcond : rstripF rest = [] ∧ pyIsSpace c
      · intro a ha
        rcases List.mem_cons.mp ha with h' | h'
        · rw [h']; exact hcond.2
        · exact (ih.mp hcond.1) a h'
      · rw [if_neg hcond] at h
        cases h
    · intro h
      have hc : pyIsSpace c = true := h c (List.mem_cons_self _ _)
      have hrest : allSpace rest := fun a ha => h a (List.mem_cons_of_mem _ ha)
      rw [if_pos ⟨ih.mpr hrest, hc⟩]

/-- Collapsing an all-whitespace tail inside a run yields nothing. -/
theorem collapseGo_true_allSpace (l : Str) (h : allSpace l) : collapseGo true l = [] := by
  induction l with
  | nil => rfl
  | cons c rest ih =>
    rw [collapseGo_cons_space true c rest (h c (List.mem_cons_self _ _))]
    simp only [if_true, List.nil_append]
    exact ih (fun a ha => h a (List.mem_cons_of_mem _ ha))

/-- Collapse keeps every non-space character. -/
theorem mem_collapseGo_of_mem (l : Str) : ∀ (b : Bool) (a : ℕ), a ∈ l → pyIsSpace a = false →
    a ∈ collapseGo b l := by
  induction l with
  | nil => intro b a ha _; cases ha
  | cons c rest ih =>
    intro b a ha hsp
    rcases List.mem_cons.mp ha with h' | h'
    · subst h'
      rw [collapseGo_cons_nonspace b a rest hsp]
      exact List.mem_cons_self _ _
    · by_cases hc : pyIsSpace c
      · rw [collapseGo_cons_space b c rest (by simpa using hc)]
        exact List.mem_append_right _ (ih true a h' hsp)
      · have hc' : pyIsSpace c = false := by revert hc; cases pyIsSpace c <;> simp
        rw [collapseGo_cons_nonspace b c rest hc']
        exact List.mem_cons_of_mem _ (ih false a h' hsp)

/-- Right strip commutes with whitespace collapse. -/
theorem collapseGo_rstripF (u : Str) : ∀ b, collapseGo b (rstripF u) = rstripF (collapseGo b u) := by
  induction u with
  | nil => intro b; rfl
  | cons c rest ih =>
    intro b
    by_cases hc : pyIsSpace c
    · by_cases hr : rstripF rest = []
      · have hall : allSpace rest := (rstripF_eq_nil_iff rest).mp hr
        have h1 : rstripF (c :: rest) = [] := by
          rw [rstripF_cons, if_pos ⟨hr, hc⟩]
        rw [h1]
        have h2 : collapseGo true rest = [] := collapseGo_true_allSpace rest hall
        rw [collapseGo_cons_space b c rest (by simpa using hc), h2]
        cases b
        · simp only [Bool.false_eq_true, if_false]
          rfl
        · simp only [if_true]
          rfl
      · have h1 : rstripF (c :: rest) = c :: rstripF rest := by
          rw [rstripF_cons, if_neg (by intro hh; exact hr hh.1)]
        rw [h1]
        have hnonall : ¬ allSpace rest := fun hall => hr ((rstripF_eq_nil_iff rest).mpr hall)
        have hex : ∃ a ∈ rest, pyIsSpace a = false := by
          by_contra hno
          push_neg at hno
          exact hnonall (fun a ha => by
            have := hno a ha
            revert this
            cases pyIsSpace a <;> simp)
        obtain ⟨a, hamem, hasp⟩ := hex
        have hmem : a ∈ collapseGo true rest := mem_collapseGo_of_mem rest true a hamem hasp
        have hne : ¬ rstripF (collapseGo true rest) = [] := by
          intro hh
          have := (rstripF_eq_nil_iff _).mp hh a hmem
          rw [hasp] at this
          cases this
        rw [collapseGo_cons_space b c rest (by simpa using hc)]
        rw [collapseGo_cons_space b c (rstripF rest) (by simpa using hc)]
        rw [ih true]
        cases b
        · simp only [Bool.false_eq_true, if_false, List.singleton_append]
          show 32 :: rstripF (collapseGo true rest) = rstripF (32 :: collapseGo true rest)
          rw [rstripF_cons, if_neg (by intro hh; exact hne hh.1)]
        · simp
    · have hc' : pyIsSpace c = false := by revert hc; cases pyIsSpace c <;> simp
      have h1 : rstripF (c :: rest) = c :: rstripF rest := by
        rw [rstripF_cons, if_neg (by intro hh; exact (by simp [hc'] : ¬ pyIsSpace c = true) hh.2)]
      rw [h1]
      rw [collapseGo_cons_nonspace b c rest hc']
      rw [collapseGo_cons_nonspace b c (rstripF rest) hc']
      have h2 : rstripF (c :: collapseGo false rest) = c :: rstripF (collapseGo false rest) := by
        rw [rstripF_cons, if_neg (by intro hh; exact (by simp [hc'] : ¬ pyIsSpace c = true) hh.2)]
      rw [h2]
      rw [ih false]

/-- Left strip is idempotent. -/
theorem dropWhile_dropWhile (p : ℕ → Bool) (l : Str) :
    (l.dropWhile p).dropWhile p = l.dropWhile p := by
  induction l with
  | nil => rfl
  | cons c rest ih =>
    by_cases h : p c
    · rw [List.dropWhile_cons_of_pos h, ih]
    · have h' : p c = false := by revert h; cases p c <;> simp
      rw [List.dropWhile_cons_of_neg (by simp [h'])]
      rw [List.dropWhile_cons_of_neg (by simp [h'])]

/-- Right strip is idempotent. -/
theorem rstripF_rstripF (u : Str) : rstripF (rstripF u) = rstripF u := by
  induction u with
  | nil => rfl
  | cons c rest ih =>
    rw [rstripF_cons]
    by_cases hcond : rstripF rest = [] ∧ pyIsSpace c = true
    · rw [if_pos hcond]; rfl
    · rw [if_neg hcond, rstripF_cons, ih, if_neg hcond]

/-- Left and right strips commute. -/
theorem dropWhile_rstripF (u : Str) :
    (rstripF u).dropWhile (fun c => pyIsSpace c) = rstripF (u.dropWhile (fun c => pyIsSpace c)) := by
  induction u with
  | nil => rfl
  | cons c rest ih =>
    by_cases hc : pyIsSpace c
    · by_cases hr : rstripF rest = []
      · rw [rstripF_cons, if_pos ⟨hr, hc⟩]
        rw [List.dropWhile_cons_of_pos (by simpa using hc)]
        rw [← ih, hr]
      · rw [rstripF_cons, if_neg (by intro hh; exact hr hh.1)]
        rw [List.dropWhile_cons_of_pos (by simpa using hc)]
        rw [List.dropWhile_cons_of_pos (by simpa using hc)]
        exact ih
    · have hc' : pyIsSpace c = false := by revert hc; cases pyIsSpace c <;> simp
      rw [rstripF_cons, if_neg (by intro hh; exact (by simp [hc'] : ¬ pyIsSpace c = true) hh.2)]
      rw [List.dropWhile_cons_of_neg (by simp [hc'])]
      rw [List.dropWhile_cons_of_neg (by simp [hc'])]
      rw [rstripF_cons, if_neg (by intro hh; exact (by simp [hc'] : ¬ pyIsSpace c = true) hh.2)]

/-- Collapse commutes with the right strip (flag false form). -/
theorem collapseWs_rstripF (v : Str) : collapseWs (rstripF v) = rstripF (collapseWs v) :=
  collapseGo_rstripF v false

/-- The trim-after-collapse of `normalize_text` is idempotent: applying
collapse-then-strip to an already collapsed-and-stripped string changes
nothing. -/
theorem stripCollapse_idem (w : Str) :
    pyStrip (collapseWs (pyStrip (collapseWs w))) = pyStrip (collapseWs w) := by
  simp only [pyStrip_eq]
  have h1 : (collapseWs w).dropWhile (fun c => pyIsSpace c) =
      collapseWs (w.dropWhile (fun c => pyIsSpace c)) := dropWhile_collapseWs w
  have h2 : collapseWs (rstripF ((collapseWs w).dropWhile (fun c => pyIsSpace c))) =
      rstripF ((collapseWs w).dropWhile (fun c => pyIsSpace c)) := by
    rw [collapseWs_rstripF, h1]
    show rstripF (collapseGo false (collapseGo false (w.dropWhile (fun c => pyIsSpace c)))) = _
    rw [collapseGo_collapseGo]
    rfl
  rw [h2, dropWhile_rstripF, rstripF_rstripF, dropWhile_dropWhile]

/-! ### C1: the rounding counterexample -/

/-- The 35 token characters used as filler (all of `[a-z0-9]` except
`q`). -/
def cxFill : Str :=
  [48, 49, 50, 51, 52, 53, 54, 55, 56, 57,
    97, 98, 99, 100, 101, 102, 103, 104, 105, 106, 107, 108, 109, 110, 111, 112,
    114, 115, 116, 117, 118, 119, 120, 121, 122]

/-- 996 filler characters: a run of 44 `0`s then 28 of each remaining
filler character, so every filler occurs more than 11 times and is
purged as popular by difflib's autojunk. -/
def cxG : Str := List.replicate 44 48 ++ (cxFill.drop 1).flatMap (fun c => List.replicate 28 c)

/-- The five excerpt tokens (200 + 200 + 200 + 200 + 196 characters). -/
def cxT1 : Str := cxG.take 200

def cxT2 : Str := (cxG.drop 200).take 200

def cxT3 : Str := (cxG.drop 400).take 200

def cxT4 : Str := (cxG.drop 600).take 200

def cxT5 : Str := cxG.drop 800

/-- The opinion-side middle token: `cxT3` with a `q` inserted at
position 100 (201 characters). -/
def cxT3q : Str := cxT3.take 100 ++ [113] ++ cxT3.drop 100

/-- The 1000-character excerpt of the C1 counterexample. -/
def cxA : Str := joinSpace [cxT1, cxT2, cxT3, cxT4, cxT5]

/-- The 1001-character opinion of the C1 counterexample: the excerpt
with a single `q` inserted mid-token. -/
def cxB : Str := joinSpace [cxT1, cxT2, cxT3q, cxT4, cxT5]

/-- The post-purge `b2j` table of the opinion string: every filler
character exceeds the popularity cutoff 1001/100 + 1 = 11 and is
dropped; the four joining spaces and the unique `q` remain. -/
def cxTab : B2J := [(32, [200, 401, 603, 804]), (113, [502])]

theorem cx_b2j : purgePopular (buildB2J cxB 0 []) cxB.length = cxTab := by decide

theorem cx_matchSum :
    matchSumGo cxA cxB cxTab (cxA.length + cxB.length + 1) 0 cxA.length 0 cxB.length = 1000 := by
  decide

theorem cx_ratio : seqRatioQ cxA cxB = mkRat 2000 2001 := by
  unfold seqRatioQ seqMatchTotal
  rw [cx_b2j, cx_matchSum]
  decide

theorem cx_sb : strip_brackets cxA = cxA := by decide

theorem cx_tokA : tokenize cxA = [cxT1, cxT2, cxT3, cxT4, cxT5] := by decide

theorem cx_tokB : tokenize cxB = [cxT1, cxT2, cxT3q, cxT4, cxT5] := by decide

theorem cx_inner :
    t3Inner [cxT1, cxT2, cxT3q, cxT4, cxT5] cxA 5 [0] (0, []) =
      ((mkRat 2000 2001, cxB), true) := by
  simp only [t3Inner]
  rw [show (([cxT1, cxT2, cxT3q, cxT4, cxT5] : List Str).drop 0).take 5 =
      [cxT1, cxT2, cxT3q, cxT4, cxT5] from rfl]
  rw [show joinSpace [cxT1, cxT2, cxT3q, cxT4, cxT5] = cxB from rfl]
  rw [cx_ratio]
  rw [if_pos (show (0 : ℚ) < mkRat 2000 2001 by decide)]
  rw [if_pos (show mkRat 98 100 ≤ ((mkRat 2000 2001 : ℚ), cxB).1 by decide)]

theorem cx_tier3 : tier3_fuzzy_match (tokenize cxB) cxA = (mkRat 2000 2001, cxB) := by
  rw [cx_tokB]
  simp only [tier3_fuzzy_match, cx_sb, cx_tokA]
  rw [if_neg (show ¬([cxT1, cxT2, cxT3, cxT4, cxT5] : List Str) = [] by decide)]
  rw [show ([cxT1, cxT2, cxT3, cxT4, cxT5] : List Str).length = 5 from rfl]
  rw [show ([cxT1, cxT2, cxT3q, cxT4, cxT5] : List Str).length = 5 from rfl]
  rw [show tier3WindowSizes 5 5 = [5] from by decide]
  rw [show joinSpace [cxT1, cxT2, cxT3, cxT4, cxT5] = cxA from rfl]
  simp only [t3Outer]
  rw [show ([cxT1, cxT2, cxT3q, cxT4, cxT5] : List Str).length = 5 from rfl]
  rw [show List.range (5 + 1 - 5) = [0] from by decide]
  rw [cx_inner]

theorem cx_t1 : tier1_normalized_substring (normalize_text cxB)
    (normalize_text (strip_brackets cxA)) = false := by decide

theorem cx_t2 : tier2_token_sequence (tokenize cxB) cxA = false := by decide

theorem cx_val : validate_excerpt cxB cxA 1001 =
    ⟨"likely_match", "fuzzy", pyRound3 (mkRat 2000 2001), cxB.take 200⟩ := by
  simp only [validate_excerpt, cx_t1, cx_t2, Bool.false_eq_true, if_false, cx_tier3]
  rw [if_pos (show mkRat 92 100 ≤ mkRat 2000 2001 by decide)]

/-- C1 counterexample: a 1000-character excerpt against a 1001-character
opinion differing by one inserted `q` misses tiers 1 and 2, and tier 3
finds a fuzzy ratio of 2000/2001 which `round(_, 3)` lifts to exactly
1.0 - so the result's similarity is 1.0 while its status is
`likely_match`, not `verified` as the claim demands. -/
theorem C1_counterexample :
    (validate_excerpt cxB cxA 1001).similarity = 1 ∧
      (validate_excerpt cxB cxA 1001).status ≠ "verified" := by
  rw [cx_val]
  exact ⟨by decide, by decide⟩

/-! ### C9 support: the scoped NFC model on mark-free strings -/

/-- Strings free of combining marks (every code point has combining
class 0). -/
def noMarks (s : Str) : Prop := ∀ c ∈ s, cccOf c = 0

/-- Every entry of the decomposition table recombines to its source:
the base is a starter, the mark has class 230, and canonical
composition inverts the decomposition. -/
theorem canonDecomp_props (c b m : ℕ) (h : canonDecomp c = some (b, m)) :
    cccOf b = 0 ∧ cccOf m = 230 ∧ canonComp b m = some c := by
  by_cases h1 : c = 225
  · subst h1
    have h0 := Option.some.inj h
    injection h0 with hb hm
    subst hb
    subst hm
    decide
  by_cases h2 : c = 233
  · subst h2
    have h0 := Option.some.inj h
    injection h0 with hb hm
    subst hb
    subst hm
    decide
  by_cases h3 : c = 237
  · subst h3
    have h0 := Option.some.inj h
    injection h0 with hb hm
    subst hb
    subst hm
    decide
  by_cases h4 : c = 243
  · subst h4
    have h0 := Option.some.inj h
    injection h0 with hb hm
    subst hb
    subst hm
    decide
  by_cases h5 : c = 250
  · subst h5
    have h0 := Option.some.inj h
    injection h0 with hb hm
    subst hb
    subst hm
    decide
  by_cases h6 : c = 253
  · subst h6
    have h0 := Option.some.inj h
    injection h0 with hb hm
    subst hb
    subst hm
    decide
  by_cases h7 : c = 7811
  · subst h7
    have h0 := Option.some.inj h
    injection h0 with hb hm
    subst hb
    subst hm
    decide
  by_cases h8 : c = 193
  · subst h8
    have h0 := Option.some.inj h
    injection h0 with hb hm
    subst hb
    subst hm
    decide
  by_cases h9 : c = 201
  · subst h9
    have h0 := Option.some.inj h
    injection h0 with hb hm
    subst hb
    subst hm
    decide
  by_cases h10 : c = 205
  · subst h10
    have h0 := Option.some.inj h
    injection h0 with hb hm
    subst hb
    subst hm
    decide
  by_cases h11 : c = 211
  · subst h11
    have h0 := Option.some.inj h
    injection h0 with hb hm
    subst hb
    subst hm
    decide
  by_cases h12 : c = 218
  · subst h12
    have h0 := Option.some.inj h
    injection h0 with hb hm
    subst hb
    subst hm
    decide
  by_cases h13 : c = 221
  · subst h13
    have h0 := Option.some.inj h
    injection h0 with hb hm
    subst hb
    subst hm
    decide
  by_cases h14 : c = 7810
  · subst h14
    have h0 := Option.some.inj h
    injection h0 with hb hm
    subst hb
    subst hm
    decide
  by_cases h15 : c = 7711
  · subst h15
    have h0 := Option.some.inj h
    injection h0 with hb hm
    subst hb
    subst hm
    decide
  by_cases h16 : c = 7710
  · subst h16
    have h0 := Option.some.inj h
    injection h0 with hb hm
    subst hb
    subst hm
    decide
  simp only [canonDecomp, if_neg h1, if_neg h2, if_neg h3, if_neg h4, if_neg h5, if_neg h6, if_neg h7, if_neg h8, if_neg h9, if_neg h10, if_neg h11, if_neg h12, if_neg h13, if_neg h14, if_neg h15, if_neg h16] at h
  exact Option.noConfusion h

/-- Equation lemma for `canonOrder` on a cons cell. -/
theorem canonOrder_cons (c : ℕ) (l : Str) :
    canonOrder (c :: l) =
      if cccOf c = 0 then c :: canonOrder l else insertByCcc c (canonOrder l) := rfl

/-- Equation lemma for `insertByCcc` on a cons cell. -/
theorem insertByCcc_cons (c d : ℕ) (rest : Str) :
    insertByCcc c (d :: rest) =
      if 0 < cccOf d ∧ cccOf d < cccOf c then d :: insertByCcc c rest
      else c :: d :: rest := rfl

/-- The decomposition of a mark-free string is empty or begins with a
starter. -/
theorem nfcDecompose_head (s : Str) (hs : noMarks s) :
    nfcDecompose s = [] ∨ ∃ d r, nfcDecompose s = d :: r ∧ cccOf d = 0 := by
  cases s with
  | nil => exact Or.inl rfl
  | cons c rest =>
    have hc : cccOf c = 0 := hs c (List.mem_cons_self c rest)
    right
    cases hdec : canonDecomp c with
    | none => exact ⟨c, nfcDecompose rest, by simp [nfcDecompose, hdec], hc⟩
    | some p =>
      obtain ⟨b, m⟩ := p
      obtain ⟨hb, _, _⟩ := canonDecomp_props c b m hdec
      exact ⟨b, m :: nfcDecompose rest, by simp [nfcDecompose, hdec], hb⟩

/-- Inserting a mark before a leading starter (or into the empty run)
is a plain cons. -/
theorem insertByCcc_starterHead (m : ℕ) (t : Str)
    (ht : t = [] ∨ ∃ d r, t = d :: r ∧ cccOf d = 0) :
    insertByCcc m t = m :: t := by
  rcases ht with rfl | ⟨d, r, rfl, hd⟩
  · rfl
  · rw [insertByCcc_cons, if_neg]
    intro hcond
    rw [hd] at hcond
    exact Nat.lt_irrefl 0 hcond.1

/-- Canonical ordering is the identity on decompositions of mark-free
strings: every nonstarter run has length at most one. -/
theorem canonOrder_nfcDecompose (s : Str) (hs : noMarks s) :
    canonOrder (nfcDecompose s) = nfcDecompose s := by
  induction s with
  | nil => rfl
  | cons c rest ih =>
    have hc : cccOf c = 0 := hs c (List.mem_cons_self c rest)
    have hrest : noMarks rest := fun d hd => hs d (List.mem_cons_of_mem c hd)
    have ih' := ih hrest
    have hhead := nfcDecompose_head rest hrest
    cases hdec : canonDecomp c with
    | none =>
      have hD : nfcDecompose (c :: rest) = c :: nfcDecompose rest := by
        simp [nfcDecompose, hdec]
      rw [hD, canonOrder_cons, if_pos hc, ih']
    | some p =>
      obtain ⟨b, m⟩ := p
      obtain ⟨hb, hm, _⟩ := canonDecomp_props c b m hdec
      have hD : nfcDecompose (c :: rest) = b :: m :: nfcDecompose rest := by
        simp [nfcDecompose, hdec]
      rw [hD, canonOrder_cons, if_pos hb, canonOrder_cons,
        if_neg (by rw [hm]; decide), ih', insertByCcc_starterHead m _ hhead]

/-- A pending starter with no gathered marks, facing an empty tail or a
starter, is simply emitted in front. -/
theorem composeGo_pending_starter (t : Str)
    (ht : t = [] ∨ ∃ d r, t = d :: r ∧ cccOf d = 0) (l : ℕ) :
    composeGo (some l) [] 0 t = l :: composeGo none [] 0 t := by
  rcases ht with rfl | ⟨d, r, rfl, hd⟩
  · rfl
  · simp [composeGo, hd]

/-- The composition pass restores a mark-free string from its
decomposition. -/
theorem composeGo_nfcDecompose (s : Str) (hs : noMarks s) :
    composeGo none [] 0 (nfcDecompose s) = s := by
  induction s with
  | nil => rfl
  | cons c rest ih =>
    have hc : cccOf c = 0 := hs c (List.mem_cons_self c rest)
    have hrest : noMarks rest := fun d hd => hs d (List.mem_cons_of_mem c hd)
    have ih' := ih hrest
    have hhead := nfcDecompose_head rest hrest
    cases hdec : canonDecomp c with
    | none =>
      have hD : nfcDecompose (c :: rest) = c :: nfcDecompose rest := by
        simp [nfcDecompose, hdec]
      have h1 : composeGo none [] 0 (c :: nfcDecompose rest)
          = composeGo (some c) [] 0 (nfcDecompose rest) := by
        simp [composeGo, hc]
      rw [hD, h1, composeGo_pending_starter _ hhead, ih']
    | some p =>
      obtain ⟨b, m⟩ := p
      obtain ⟨hb, hm, hcomp⟩ := canonDecomp_props c b m hdec
      have hD : nfcDecompose (c :: rest) = b :: m :: nfcDecompose rest := by
        simp [nfcDecompose, hdec]
      have h1 : composeGo none [] 0 (b :: m :: nfcDecompose rest)
          = composeGo (some b) [] 0 (m :: nfcDecompose rest) := by
        simp [composeGo, hb]
      have h2 : composeGo (some b) [] 0 (m :: nfcDecompose rest)
          = composeGo (some c) [] 0 (nfcDecompose rest) := by
        simp [composeGo, hm, hcomp]
      rw [hD, h1, h2, composeGo_pending_starter _ hhead, ih']

/-- The scoped NFC is the identity on mark-free strings: decomposition
followed by canonical recomposition restores every precomposed
character. -/
theorem nfcScoped_noMarks (s : Str) (hs : noMarks s) : nfcScoped s = s := by
  unfold nfcScoped
  rw [canonOrder_nfcDecompose s hs, composeGo_nfcDecompose s hs]

/-! ### C9 support: the replacement cascade -/

/-- Membership in a `pyReplace` image: a survivor of the input that is
not the needle, or a character of the replacement string. -/
theorem mem_pyReplace (s : Str) (t : ℕ) (r : Str) (c : ℕ) (h : c ∈ pyReplace s t r) :
    (c ∈ s ∧ c ≠ t) ∨ c ∈ r := by
  simp only [pyReplace, List.mem_flatMap] at h
  obtain ⟨d, hd, hcd⟩ := h
  by_cases hdt : d = t
  · rw [if_pos hdt] at hcd
    exact Or.inr hcd
  · rw [if_neg hdt] at hcd
    simp only [List.mem_singleton] at hcd
    subst hcd
    exact Or.inl ⟨hd, hdt⟩

/-- Deleting replacement: a survivor is an input character distinct
from the needle. -/
theorem mem_pyReplace_nil (s : Str) (t : ℕ) (c : ℕ) (h : c ∈ pyReplace s t []) :
    c ∈ s ∧ c ≠ t := by
  rcases mem_pyReplace s t [] c h with h' | h'
  · exact h'
  · exact absurd h' (List.not_mem_nil c)

/-- `pyReplace` with an absent needle changes nothing. -/
theorem pyReplace_eq_self (s : Str) (t : ℕ) (r : Str) (h : t ∉ s) : pyReplace s t r = s := by
  induction s with
  | nil => rfl
  | cons d rest ih =>
    have hdt : d ≠ t := fun hh => h (hh ▸ List.mem_cons_self d rest)
    have hrest : t ∉ rest := fun hh => h (List.mem_cons_of_mem d hh)
    simp only [pyReplace, List.flatMap_cons] at *
    rw [if_neg hdt, ih hrest]
    rfl

/-- Replacement characters of the cascade are starters and are none of
the twelve needles. -/
theorem replCharSafe (u : Str) (c : ℕ) (hc : c ∈ ([39, 34, 45, 102, 105, 108, 32] : Str)) :
    (c ∈ u ∨ c ∈ ([39, 34, 45, 102, 105, 108, 32] : Str)) ∧
      c ≠ 8216 ∧ c ≠ 8217 ∧ c ≠ 8220 ∧ c ≠ 8221 ∧ c ≠ 8212 ∧ c ≠ 8211 ∧
      c ≠ 64257 ∧ c ≠ 64258 ∧ c ≠ 160 ∧ c ≠ 8203 ∧ c ≠ 8204 ∧ c ≠ 65279 := by
  refine ⟨Or.inr hc, ?_⟩
  simp only [List.mem_cons, List.not_mem_nil, or_false] at hc
  rcases hc with rfl | rfl | rfl | rfl | rfl | rfl | rfl <;> decide

/-- Characters surviving the twelve replacements of `normalize_text`:
each comes from the input or a replacement string, and none is one of
the twelve needles. -/
theorem replChain_out (u : Str) (c : ℕ)
    (h : c ∈ pyReplace (pyReplace (pyReplace (pyReplace (pyReplace (pyReplace (pyReplace
          (pyReplace (pyReplace (pyReplace (pyReplace (pyReplace u
          8216 [39]) 8217 [39]) 8220 [34]) 8221 [34]) 8212 [45]) 8211 [45])
          64257 [102, 105]) 64258 [102, 108]) 160 [32]) 8203 []) 8204 []) 65279 []) :
    (c ∈ u ∨ c ∈ ([39, 34, 45, 102, 105, 108, 32] : Str)) ∧
      c ≠ 8216 ∧ c ≠ 8217 ∧ c ≠ 8220 ∧ c ≠ 8221 ∧ c ≠ 8212 ∧ c ≠ 8211 ∧
      c ≠ 64257 ∧ c ≠ 64258 ∧ c ≠ 160 ∧ c ≠ 8203 ∧ c ≠ 8204 ∧ c ≠ 65279 := by
  obtain ⟨h, h12⟩ := mem_pyReplace_nil _ _ _ h
  obtain ⟨h, h11⟩ := mem_pyReplace_nil _ _ _ h
  obtain ⟨h, h10⟩ := mem_pyReplace_nil _ _ _ h
  rcases mem_pyReplace _ _ _ _ h with ⟨h, h9⟩ | hr
  · rcases mem_pyReplace _ _ _ _ h with ⟨h, h8⟩ | hr
    · rcases mem_pyReplace _ _ _ _ h with ⟨h, h7⟩ | hr
      · rcases mem_pyReplace _ _ _ _ h with ⟨h, h6⟩ | hr
        · rcases mem_pyReplace _ _ _ _ h with ⟨h, h5⟩ | hr
          · rcases mem_pyReplace _ _ _ _ h with ⟨h, h4⟩ | hr
            · rcases mem_pyReplace _ _ _ _ h with ⟨h, h3⟩ | hr
              · rcases mem_pyReplace _ _ _ _ h with ⟨h, h2⟩ | hr
                · rcases mem_pyReplace _ _ _ _ h with ⟨h, h1⟩ | hr
                  · exact ⟨Or.inl h, h1, h2, h3, h4, h5, h6, h7, h8, h9, h10, h11, h12⟩
                  · simp only [List.mem_singleton] at hr
                    subst hr
                    exact replCharSafe u 39 (by decide)
                · simp only [List.mem_singleton] at hr
                  subst hr
                  exact replCharSafe u 39 (by decide)
              · simp only [List.mem_singleton] at hr
                subst hr
                exact replCharSafe u 34 (by decide)
            · simp only [List.mem_singleton] at hr
              subst hr
              exact replCharSafe u 34 (by decide)
          · simp only [List.mem_singleton] at hr
            subst hr
            exact replCharSafe u 45 (by decide)
        · simp only [List.mem_singleton] at hr
          subst hr
          exact replCharSafe u 45 (by decide)
      · simp only [List.mem_cons, List.not_mem_nil, or_false] at hr
        rcases hr with rfl | rfl
        · exact replCharSafe u 102 (by decide)
        · exact replCharSafe u 105 (by decide)
    · simp only [List.mem_cons, List.not_mem_nil, or_false] at hr
      rcases hr with rfl | rfl
      · exact replCharSafe u 102 (by decide)
      · exact replCharSafe u 108 (by decide)
  · simp only [List.mem_singleton] at hr
    subst hr
    exact replCharSafe u 32 (by decide)

/-- A character of a right-stripped string is a character of the
original. -/
theorem mem_rstripF (s : Str) (c : ℕ) (h : c ∈ rstripF s) : c ∈ s := by
  induction s with
  | nil => exact absurd h (List.not_mem_nil c)
  | cons d rest ih =>
    rw [rstripF_cons] at h
    by_cases hcond : rstripF rest = [] ∧ pyIsSpace d = true
    · rw [if_pos hcond] at h
      exact absurd h (List.not_mem_nil c)
    · rw [if_neg hcond] at h
      rcases List.mem_cons.mp h with rfl | h'
      · exact List.mem_cons_self _ _
      · exact List.mem_cons_of_mem d (ih h')

/-- A character of a stripped string is a character of the original. -/
theorem mem_pyStrip (s : Str) (c : ℕ) (h : c ∈ pyStrip s) : c ∈ s := by
  rw [pyStrip_eq] at h
  exact List.Sublist.mem (mem_rstripF _ _ h) (List.dropWhile_sublist _)

/-- A character of a collapsed string is an original character or the
space that replaced a run. -/
theorem mem_collapseGo (s : Str) : ∀ (b : Bool) (c : ℕ), c ∈ collapseGo b s → c ∈ s ∨ c = 32 := by
  induction s with
  | nil =>
    intro b c h
    rw [show collapseGo b [] = [] from by cases b <;> rfl] at h
    exact absurd h (List.not_mem_nil c)
  | cons d rest ih =>
    intro b c h
    by_cases hd : pyIsSpace d
    · rw [collapseGo_cons_space b d rest (by simpa using hd)] at h
      rcases List.mem_append.mp h with h' | h'
      · cases b with
        | true => exact absurd h' (List.not_mem_nil c)
        | false =>
          simp at h'
          exact Or.inr h'
      · rcases ih true c h' with h'' | h''
        · exact Or.inl (List.mem_cons_of_mem d h'')
        · exact Or.inr h''
    · have hd' : pyIsSpace d = false := by revert hd; cases pyIsSpace d <;> simp
      rw [collapseGo_cons_nonspace b d rest hd'] at h
      rcases List.mem_cons.mp h with rfl | h'
      · exact Or.inl (List.mem_cons_self _ _)
      · rcases ih false c h' with h'' | h''
        · exact Or.inl (List.mem_cons_of_mem d h'')
        · exact Or.inr h''

/-- `collapseWs` form of `mem_collapseGo`. -/
theorem mem_collapseWs (s : Str) (c : ℕ) (h : c ∈ collapseWs s) : c ∈ s ∨ c = 32 :=
  mem_collapseGo s false c h

/-- Every character of `normalize_text x`, for a mark-free `x`, is a
starter and is none of the twelve replacement needles. -/
theorem normalize_text_out (x : Str) (hx : noMarks x) (c : ℕ) (h : c ∈ normalize_text x) :
    cccOf c = 0 ∧ c ≠ 8216 ∧ c ≠ 8217 ∧ c ≠ 8220 ∧ c ≠ 8221 ∧ c ≠ 8212 ∧ c ≠ 8211 ∧
      c ≠ 64257 ∧ c ≠ 64258 ∧ c ≠ 160 ∧ c ≠ 8203 ∧ c ≠ 8204 ∧ c ≠ 65279 := by
  have hnf : nfcScoped x = x := nfcScoped_noMarks x hx
  simp only [normalize_text, hnf] at h
  have h1 := mem_pyStrip _ _ h
  rcases mem_collapseWs _ c h1 with h2 | rfl
  · have h3 := replChain_out x c h2
    rcases h3.1 with h4 | h4
    · exact ⟨hx c h4, h3.2⟩
    · refine ⟨?_, h3.2⟩
      simp only [List.mem_cons, List.not_mem_nil, or_false] at h4
      rcases h4 with rfl | rfl | rfl | rfl | rfl | rfl | rfl <;> decide
  · exact ⟨by decide, by decide, by decide, by decide, by decide, by decide, by decide,
      by decide, by decide, by decide, by decide, by decide, by decide⟩

/-- C9 (amended): `normalize_text` is idempotent on every input free of
combining marks (the NFC pass runs before the ligature replacements, so
a combining mark directly after a ligature can defeat idempotence, as
`C9_counterexample` shows; without marks the second pass is the
identity). -/
theorem C9_normalize_idempotent (x : Str) (hx : ∀ c ∈ x, cccOf c = 0) :
    normalize_text (normalize_text x) = normalize_text x := by
  have hout := normalize_text_out x hx
  set y := normalize_text x with hy
  have hnm : noMarks y := fun c hc => (hout c hc).1
  have hnf2 : nfcScoped y = y := nfcScoped_noMarks _ hnm
  have e1 : pyReplace y 8216 [39] = y :=
    pyReplace_eq_self _ _ _ (fun hc => (hout 8216 hc).2.1 rfl)
  have e2 : pyReplace y 8217 [39] = y :=
    pyReplace_eq_self _ _ _ (fun hc => (hout 8217 hc).2.2.1 rfl)
  have e3 : pyReplace y 8220 [34] = y :=
    pyReplace_eq_self _ _ _ (fun hc => (hout 8220 hc).2.2.2.1 rfl)
  have e4 : pyReplace y 8221 [34] = y :=
    pyReplace_eq_self _ _ _ (fun hc => (hout 8221 hc).2.2.2.2.1 rfl)
  have e5 : pyReplace y 8212 [45] = y :=
    pyReplace_eq_self _ _ _ (fun hc => (hout 8212 hc).2.2.2.2.2.1 rfl)
  have e6 : pyReplace y 8211 [45] = y :=
    pyReplace_eq_self _ _ _ (fun hc => (hout 8211 hc).2.2.2.2.2.2.1 rfl)
  have e7 : pyReplace y 64257 [102, 105] = y :=
    pyReplace_eq_self _ _ _ (fun hc => (hout 64257 hc).2.2.2.2.2.2.2.1 rfl)
  have e8 : pyReplace y 64258 [102, 108] = y :=
    pyReplace_eq_self _ _ _ (fun hc => (hout 64258 hc).2.2.2.2.2.2.2.2.1 rfl)
  have e9 : pyReplace y 160 [32] = y :=
    pyReplace_eq_self _ _ _ (fun hc => (hout 160 hc).2.2.2.2.2.2.2.2.2.1 rfl)
  have e10 : pyReplace y 8203 [] = y :=
    pyReplace_eq_self _ _ _ (fun hc => (hout 8203 hc).2.2.2.2.2.2.2.2.2.2.1 rfl)
  have e11 : pyReplace y 8204 [] = y :=
    pyReplace_eq_self _ _ _ (fun hc => (hout 8204 hc).2.2.2.2.2.2.2.2.2.2.2.1 rfl)
  have e12 : pyReplace y 65279 [] = y :=
    pyReplace_eq_self _ _ _ (fun hc => (hout 65279 hc).2.2.2.2.2.2.2.2.2.2.2.2 rfl)
  have hchain : normalize_text y = pyStrip (collapseWs y) := by
    simp only [normalize_text, hnf2, e1, e2, e3, e4, e5, e6, e7, e8, e9, e10, e11, e12]
  rw [hchain, hy]
  simp only [normalize_text]
  exact stripCollapse_idem _

/-- Witness for `C9_normalize_idempotent`: a concrete mark-free input
with curly quotes, a precomposed accent, an fi ligature and doubled
spaces. -/
theorem C9_normalize_idempotent_witness :
    (∀ c ∈ ([8220, 233, 32, 32, 64257, 8221] : Str), cccOf c = 0) ∧
      normalize_text (normalize_text ([8220, 233, 32, 32, 64257, 8221] : Str)) =
        normalize_text ([8220, 233, 32, 32, 64257, 8221] : Str) :=
  ⟨by decide, C9_normalize_idempotent _ (by decide)⟩

/-! ### C1 support: bounds of the fuzzy ratio and the cascade -/

/-- A `j2len` row lookup defaults to zero or returns a stored pair. -/
theorem jGet_mem (row : J2L) (j : ℕ) : jGet row j = 0 ∨ (j, jGet row j) ∈ row := by
  induction row with
  | nil => exact Or.inl rfl
  | cons p rest ih =>
    obtain ⟨k, v⟩ := p
    by_cases hk : k = j
    · subst hk
      right
      simp [jGet]
    · have hskip : jGet ((k, v) :: rest) j = jGet rest j := by simp [jGet, hk]
      rcases ih with h | h
      · exact Or.inl (by rw [hskip, h])
      · refine Or.inr ?_
        rw [hskip]
        exact List.mem_cons_of_mem _ h

/-- Invariant of the inner loop of `find_longest_match`: row entries
stay bounded by the row index and column, and the candidate block stays
inside the search region. -/
theorem flmJLoop_spec (alo ahi blo bhi i : ℕ) (old : J2L)
    (hold : ∀ k v, (k, v) ∈ old → v + alo ≤ i ∧ blo + v ≤ k + 1)
    (hai : alo ≤ i) (hia : i < ahi) :
    ∀ (js : List ℕ) (new : J2L) (best : FlmBest),
      (∀ k v, (k, v) ∈ new → v + alo ≤ i + 1 ∧ blo + v ≤ k + 1) →
      (alo ≤ best.besti ∧ blo ≤ best.bestj ∧
        best.besti + best.bestsize ≤ ahi ∧ best.bestj + best.bestsize ≤ bhi) →
      ((∀ k v, (k, v) ∈ (flmJLoop blo bhi i old js new best).1 →
          v + alo ≤ i + 1 ∧ blo + v ≤ k + 1) ∧
        (alo ≤ (flmJLoop blo bhi i old js new best).2.besti ∧
          blo ≤ (flmJLoop blo bhi i old js new best).2.bestj ∧
          (flmJLoop blo bhi i old js new best).2.besti +
            (flmJLoop blo bhi i old js new best).2.bestsize ≤ ahi ∧
          (flmJLoop blo bhi i old js new best).2.bestj +
            (flmJLoop blo bhi i old js new best).2.bestsize ≤ bhi)) := by
  intro js
  induction js with
  | nil =>
    intro new best hnew hbest
    exact ⟨hnew, hbest⟩
  | cons j js ih =>
    intro new best hnew hbest
    simp only [flmJLoop]
    by_cases hjlo : j < blo
    · rw [if_pos hjlo]
      exact ih new best hnew hbest
    · rw [if_neg hjlo]
      by_cases hjhi : bhi ≤ j
      · rw [if_pos hjhi]
        exact ⟨hnew, hbest⟩
      · rw [if_neg hjhi]
        cases j with
        | zero =>
          refine ih _ _ ?_ ?_
          · intro k v hkv
            rcases List.mem_cons.mp hkv with heq | hmem
            · injection heq with hk hv
              subst hk
              subst hv
              dsimp only
              omega
            · exact hnew k v hmem
          · split
            next hbk =>
              refine ⟨?_, ?_, ?_, ?_⟩ <;> dsimp only <;> omega
            next hbk =>
              exact hbest
        | succ jj =>
          have hkle : jGet old jj + alo ≤ i ∧ blo + jGet old jj ≤ jj + 1 := by
            rcases jGet_mem old jj with h0 | hmem
            · rw [h0]
              omega
            · exact hold jj (jGet old jj) hmem
          refine ih _ _ ?_ ?_
          · intro k v hkv
            rcases List.mem_cons.mp hkv with heq | hmem
            · injection heq with hk hv
              subst hk
              subst hv
              dsimp only
              omega
            · exact hnew k v hmem
          · split
            next hbk =>
              refine ⟨?_, ?_, ?_, ?_⟩ <;> dsimp only <;> omega
            next hbk =>
              exact hbest

/-- Invariant of the row loop of `find_longest_match` over consecutive
row indices. -/
theorem flmRows_spec (b2j : B2J) (alo ahi blo bhi : ℕ) :
    ∀ (rows : List (ℕ × ℕ)) (i0 : ℕ),
      rows.map Prod.fst = List.range' i0 rows.length →
      alo ≤ i0 → i0 + rows.length ≤ ahi →
      ∀ (j2len : J2L) (best : FlmBest),
        (∀ k v, (k, v) ∈ j2len → v + alo ≤ i0 ∧ blo + v ≤ k + 1) →
        (alo ≤ best.besti ∧ blo ≤ best.bestj ∧
          best.besti + best.bestsize ≤ ahi ∧ best.bestj + best.bestsize ≤ bhi) →
        (alo ≤ (flmRows b2j blo bhi rows j2len best).besti ∧
          blo ≤ (flmRows b2j blo bhi rows j2len best).bestj ∧
          (flmRows b2j blo bhi rows j2len best).besti +
            (flmRows b2j blo bhi rows j2len best).bestsize ≤ ahi ∧
          (flmRows b2j blo bhi rows j2len best).bestj +
            (flmRows b2j blo bhi rows j2len best).bestsize ≤ bhi) := by
  intro rows
  induction rows with
  | nil =>
    intro i0 _ _ _ j2len best _ hbest
    exact hbest
  | cons q rest ih =>
    obtain ⟨i, c⟩ := q
    intro i0 hmap hai hlen j2len best hrow hbest
    have hlen' : i0 + (rest.length + 1) ≤ ahi := by simpa using hlen
    have hmap' : i :: rest.map Prod.fst = i0 :: List.range' (i0 + 1) rest.length := by
      simpa [List.range'_succ] using hmap
    injection hmap' with hi hrest
    subst hi
    have hspec := flmJLoop_spec alo ahi blo bhi i j2len hrow hai (by omega)
      (b2jGet b2j c) [] best
      (fun k v hkv => absurd hkv (List.not_mem_nil _)) hbest
    rcases hout : flmJLoop blo bhi i j2len (b2jGet b2j c) [] best with ⟨new, best'⟩
    rw [hout] at hspec
    have hred : flmRows b2j blo bhi ((i, c) :: rest) j2len best =
        flmRows b2j blo bhi rest new best' := by
      simp [flmRows, hout]
    rw [hred]
    exact ih (i + 1) hrest (by omega) (by omega) new best' hspec.1 hspec.2

/-- First components of a zip of a `range'` with any list. -/
theorem map_fst_zip_range' {α : Type} : ∀ (n s : ℕ) (l : List α),
    ((List.range' s n).zip l).map Prod.fst = List.range' s (min n l.length) := by
  intro n
  induction n with
  | zero => intro s l; simp
  | succ n ih =>
    intro s l
    cases l with
    | nil => simp
    | cons x xs =>
      rw [List.range'_succ, List.zip_cons_cons, List.map_cons, ih (s + 1) xs]
      rw [show min (n + 1) (x :: xs).length = min n xs.length + 1 from by
        simp only [List.length_cons]; omega]
      rw [List.range'_succ]

/-- The common prefix is no longer than the left list. -/
theorem commonLen_le_left : ∀ (x y : Str), commonLen x y ≤ x.length := by
  intro x
  induction x with
  | nil => intro y; cases y <;> simp [commonLen]
  | cons a xs ih =>
    intro y
    cases y with
    | nil => simp [commonLen]
    | cons b ys =>
      simp only [commonLen, List.length_cons]
      by_cases hab : a = b
      · rw [if_pos hab]
        exact Nat.succ_le_succ (ih ys)
      · rw [if_neg hab]
        omega

/-- The common prefix is no longer than the right list. -/
theorem commonLen_le_right : ∀ (x y : Str), commonLen x y ≤ y.length := by
  intro x
  induction x with
  | nil => intro y; cases y <;> simp [commonLen]
  | cons a xs ih =>
    intro y
    cases y with
    | nil => simp [commonLen]
    | cons b ys =>
      simp only [commonLen, List.length_cons]
      by_cases hab : a = b
      · rw [if_pos hab]
        exact Nat.succ_le_succ (ih ys)
      · rw [if_neg hab]
        omega

/-- The block returned by `find_longest_match` lies inside the search
region. -/
theorem flm_bounds (a b : Str) (b2j : B2J) (alo ahi blo bhi : ℕ)
    (ha : alo ≤ ahi) (hb : blo ≤ bhi) :
    alo ≤ (find_longest_match a b b2j alo ahi blo bhi).besti ∧
      blo ≤ (find_longest_match a b b2j alo ahi blo bhi).bestj ∧
      (find_longest_match a b b2j alo ahi blo bhi).besti +
        (find_longest_match a b b2j alo ahi blo bhi).bestsize ≤ ahi ∧
      (find_longest_match a b b2j alo ahi blo bhi).bestj +
        (find_longest_match a b b2j alo ahi blo bhi).bestsize ≤ bhi := by
  have hmap : (rowIdx a alo ahi).map Prod.fst =
      List.range' alo (rowIdx a alo ahi).length := by
    unfold rowIdx
    rw [map_fst_zip_range']
    congr 1
    rw [List.length_zip, List.length_range']
  have hlen : alo + (rowIdx a alo ahi).length ≤ ahi := by
    unfold rowIdx
    rw [List.length_zip, List.length_range']
    omega
  have hm := flmRows_spec b2j alo ahi blo bhi (rowIdx a alo ahi) alo hmap (le_refl alo) hlen
    [] ⟨alo, blo, 0⟩ (fun k v hkv => absurd hkv (List.not_mem_nil _))
    ⟨le_refl alo, le_refl blo, by simpa using ha, by simpa using hb⟩
  unfold find_longest_match
  dsimp only
  set m := flmRows b2j blo bhi (rowIdx a alo ahi) [] ⟨alo, blo, 0⟩ with hmdef
  obtain ⟨g1, g2, g3, g4⟩ := hm
  set dl := commonLen ((a.take m.besti).drop alo).reverse
    ((b.take m.bestj).drop blo).reverse with hdl
  have hd1 : dl ≤ min m.besti a.length - alo := by
    rw [hdl]
    have h := commonLen_le_left (((a.take m.besti).drop alo).reverse)
      (((b.take m.bestj).drop blo).reverse)
    simpa [List.length_reverse, List.length_drop, List.length_take] using h
  have hd2 : dl ≤ min m.bestj b.length - blo := by
    rw [hdl]
    have h := commonLen_le_right (((a.take m.besti).drop alo).reverse)
      (((b.take m.bestj).drop blo).reverse)
    simpa [List.length_reverse, List.length_drop, List.length_take] using h
  set dr := commonLen ((a.take ahi).drop (m.besti - dl + (m.bestsize + dl)))
    ((b.take bhi).drop (m.bestj - dl + (m.bestsize + dl))) with hdr
  have hd3 : dr ≤ min ahi a.length - (m.besti - dl + (m.bestsize + dl)) := by
    rw [hdr]
    have h := commonLen_le_left ((a.take ahi).drop (m.besti - dl + (m.bestsize + dl)))
      ((b.take bhi).drop (m.bestj - dl + (m.bestsize + dl)))
    simpa [List.length_drop, List.length_take] using h
  have hd4 : dr ≤ min bhi b.length - (m.bestj - dl + (m.bestsize + dl)) := by
    rw [hdr]
    have h := commonLen_le_right ((a.take ahi).drop (m.besti - dl + (m.bestsize + dl)))
      ((b.take bhi).drop (m.bestj - dl + (m.bestsize + dl)))
    simpa [List.length_drop, List.length_take] using h
  refine ⟨?_, ?_, ?_, ?_⟩ <;> dsimp only <;> omega

/-- The total matched size is at most the smaller region side. -/
theorem matchSumGo_le (a b : Str) (b2j : B2J) :
    ∀ (fuel alo ahi blo bhi : ℕ), alo ≤ ahi → blo ≤ bhi →
      matchSumGo a b b2j fuel alo ahi blo bhi ≤ min (ahi - alo) (bhi - blo) := by
  intro fuel
  induction fuel with
  | zero =>
    intro alo ahi blo bhi _ _
    exact Nat.zero_le _
  | succ fuel ih =>
    intro alo ahi blo bhi ha hb
    have hF := flm_bounds a b b2j alo ahi blo bhi ha hb
    simp only [matchSumGo]
    set m := find_longest_match a b b2j alo ahi blo bhi with hm
    obtain ⟨f1, f2, f3, f4⟩ := hF
    by_cases hz : m.bestsize = 0
    · rw [if_pos hz]
      exact Nat.zero_le _
    · rw [if_neg hz]
      by_cases hL : alo < m.besti ∧ blo < m.bestj
      · have hLle := ih alo m.besti blo m.bestj (le_of_lt hL.1) (le_of_lt hL.2)
        by_cases hR : m.besti + m.bestsize < ahi ∧ m.bestj + m.bestsize < bhi
        · have hRle := ih (m.besti + m.bestsize) ahi (m.bestj + m.bestsize) bhi
            (le_of_lt hR.1) (le_of_lt hR.2)
          rw [if_pos hL, if_pos hR]
          omega
        · rw [if_pos hL, if_neg hR]
          omega
      · by_cases hR : m.besti + m.bestsize < ahi ∧ m.bestj + m.bestsize < bhi
        · have hRle := ih (m.besti + m.bestsize) ahi (m.bestj + m.bestsize) bhi
            (le_of_lt hR.1) (le_of_lt hR.2)
          rw [if_neg hL, if_pos hR]
          omega
        · rw [if_neg hL, if_neg hR]
          omega

/-- `mkRat` over an integer numerator and natural denominator as a
field division. -/
theorem mkRat_eq_divQ (n : ℤ) (d : ℕ) : mkRat n d = (n : ℚ) / (d : ℚ) := by
  rw [Rat.mkRat_eq_divInt, Rat.divInt_eq_div]
  norm_cast

/-- The difflib ratio is between 0 and 1. -/
theorem seqRatioQ_bounds (a b : Str) : 0 ≤ seqRatioQ a b ∧ seqRatioQ a b ≤ 1 := by
  unfold seqRatioQ
  split_ifs with h
  · constructor <;> norm_num
  · have hM : seqMatchTotal a b ≤ min a.length b.length := by
      unfold seqMatchTotal
      have h2 := matchSumGo_le a b (purgePopular (buildB2J b 0 []) b.length)
        (a.length + b.length + 1) 0 a.length 0 b.length (Nat.zero_le _) (Nat.zero_le _)
      simpa using h2
    rw [mkRat_eq_divQ]
    have hd : (0 : ℚ) < ((a.length + b.length : ℕ) : ℚ) := by
      have hpos : 0 < a.length + b.length := Nat.pos_of_ne_zero h
      exact_mod_cast hpos
    constructor
    · apply div_nonneg _ (le_of_lt hd)
      positivity
    · rw [div_le_one hd]
      have hle : 2 * seqMatchTotal a b ≤ a.length + b.length := by omega
      exact_mod_cast hle

/-- The round-half-even core is nonnegative on nonnegative input. -/
theorem rhePair_nonneg (num : ℤ) (den : ℕ) (h : 0 ≤ num) (hden : 0 < den) :
    0 ≤ rhePair num den := by
  have hfd : 0 ≤ num.fdiv den := Int.fdiv_nonneg h (by exact_mod_cast le_of_lt hden)
  simp only [rhePair]
  split_ifs <;> omega

/-- The round-half-even core respects an upper bound of the exact
quotient. -/
theorem rhePair_le (num : ℤ) (den : ℕ) (B : ℤ) (hden : 0 < den) (h : num ≤ B * den) :
    rhePair num den ≤ B := by
  have hdz : ((den : ℕ) : ℤ) ≠ 0 := by exact_mod_cast hden.ne'
  have hdzpos : (0 : ℤ) < (den : ℤ) := by exact_mod_cast hden
  have hid := Int.fdiv_add_fmod num den
  have hfe : num.fmod den = num % den := Int.fmod_eq_emod num (le_of_lt hdzpos)
  have hr0 : 0 ≤ num.fmod den := by rw [hfe]; exact Int.emod_nonneg num hdz
  have hfd : num.fdiv den ≤ B := by
    by_contra hc
    push_neg at hc
    have h1 : (den : ℤ) * (B + 1) ≤ (den : ℤ) * num.fdiv den :=
      mul_le_mul_of_nonneg_left (by omega) (le_of_lt hdzpos)
    linarith [hid, hr0, h, h1]
  simp only [rhePair]
  rcases eq_or_lt_of_le hfd with heq | hlt
  · have hmul : num.fdiv den * (den : ℤ) = B * den := by rw [heq]
    have hreq : num - num.fdiv den * den ≤ 0 := by linarith [h, hmul]
    have hrf : 0 ≤ num - num.fdiv den * den := by
      have hcm : (den : ℤ) * num.fdiv den = num.fdiv den * den := mul_comm _ _
      linarith [hid, hr0, hcm]
    have hr00 : num - num.fdiv den * den = 0 := le_antisymm hreq hrf
    split_ifs with hc1 hc2 hc3
    · exact le_of_eq heq
    · exfalso
      rw [hr00] at hc2
      linarith [hdzpos, hc2]
    · exact le_of_eq heq
    · exfalso
      rw [hr00] at hc1
      exact hc1 (by linarith)
  · split_ifs <;> omega

/-- The round-half-even core stays at or below `B` when the quotient is
strictly below `B + 1/2`. -/
theorem rhePair_le_of_double_lt (num : ℤ) (den : ℕ) (B : ℤ) (hden : 0 < den)
    (h : 2 * num < (2 * B + 1) * den) : rhePair num den ≤ B := by
  have hdz : ((den : ℕ) : ℤ) ≠ 0 := by exact_mod_cast hden.ne'
  have hdzpos : (0 : ℤ) < (den : ℤ) := by exact_mod_cast hden
  have hid := Int.fdiv_add_fmod num den
  have hfe : num.fmod den = num % den := Int.fmod_eq_emod num (le_of_lt hdzpos)
  have hr0 : 0 ≤ num.fmod den := by rw [hfe]; exact Int.emod_nonneg num hdz
  have hfd : num.fdiv den ≤ B := by
    by_contra hc
    push_neg at hc
    have h1 : (den : ℤ) * (B + 1) ≤ (den : ℤ) * num.fdiv den :=
      mul_le_mul_of_nonneg_left (by omega) (le_of_lt hdzpos)
    linarith [hid, hr0, h, h1]
  simp only [rhePair]
  rcases eq_or_lt_of_le hfd with heq | hlt
  · have hmul : num.fdiv den * (den : ℤ) = B * den := by rw [heq]
    split_ifs with hc1 hc2 hc3
    · exact le_of_eq heq
    · exfalso
      linarith [hc2, hmul, h]
    · exact le_of_eq heq
    · exfalso
      have hge := not_lt.mp hc1
      have hle := not_lt.mp hc2
      have h2 : 2 * (num - num.fdiv den * den) = den := le_antisymm hle hge
      linarith [h2, hmul, h]
  · split_ifs <;> omega

/-- `round(q, 3)` stays in the unit interval. -/
theorem pyRound3_bounds (q : ℚ) (h0 : 0 ≤ q) (h1 : q ≤ 1) :
    0 ≤ pyRound3 q ∧ pyRound3 q ≤ 1 := by
  have hn0 : 0 ≤ q.num := Rat.num_nonneg.mpr h0
  have hdQ : (0 : ℚ) < (q.den : ℚ) := by exact_mod_cast q.den_pos
  have hnd : q.num ≤ (q.den : ℤ) := by
    have hq : (q.num : ℚ) / (q.den : ℚ) ≤ 1 := by rw [Rat.num_div_den]; exact h1
    rw [div_le_one hdQ] at hq
    exact_mod_cast hq
  have hlo : 0 ≤ rhePair (1000 * q.num) q.den :=
    rhePair_nonneg _ _ (by linarith) q.den_pos
  have hhi : rhePair (1000 * q.num) q.den ≤ 1000 :=
    rhePair_le _ _ 1000 q.den_pos (by linarith)
  simp only [pyRound3]
  rw [mkRat_eq_divQ]
  constructor
  · apply div_nonneg _ (by norm_num)
    exact_mod_cast hlo
  · rw [div_le_one (by norm_num)]
    exact_mod_cast hhi

/-- A ratio strictly below 0.92 cannot round to 1.0 at three decimal
places. -/
theorem pyRound3_lt_one (q : ℚ) (h : q < mkRat 92 100) : pyRound3 q < 1 := by
  have hdQ : (0 : ℚ) < (q.den : ℚ) := by exact_mod_cast q.den_pos
  have hq2 : q < ((92 : ℤ) : ℚ) / ((100 : ℕ) : ℚ) := by rwa [mkRat_eq_divQ] at h
  have hq : (q.num : ℚ) / (q.den : ℚ) < ((92 : ℤ) : ℚ) / ((100 : ℕ) : ℚ) := by
    rw [Rat.num_div_den]
    exact hq2
  rw [div_lt_div_iff hdQ (by norm_num)] at hq
  have hnum : q.num * 100 < 92 * (q.den : ℤ) := by exact_mod_cast hq
  have hdenZ : (0 : ℤ) < (q.den : ℤ) := by exact_mod_cast q.den_pos
  have hB : rhePair (1000 * q.num) q.den ≤ 999 :=
    rhePair_le_of_double_lt _ _ 999 q.den_pos (by linarith)
  simp only [pyRound3]
  rw [mkRat_eq_divQ]
  rw [div_lt_one (by norm_num)]
  have h9 : ((rhePair (1000 * q.num) q.den : ℤ) : ℚ) ≤ 999 := by exact_mod_cast hB
  push_cast
  linarith

/-- The running best of the tier-3 inner loop stays in the unit
interval. -/
theorem t3Inner_bounds (opTokens : List Str) (es : Str) (w : ℕ) :
    ∀ (positions : List ℕ) (st : ℚ × Str), 0 ≤ st.1 → st.1 ≤ 1 →
      0 ≤ (t3Inner opTokens es w positions st).1.1 ∧
        (t3Inner opTokens es w positions st).1.1 ≤ 1 := by
  intro positions
  induction positions with
  | nil =>
    intro st h0 h1
    exact ⟨h0, h1⟩
  | cons i rest ih =>
    intro st h0 h1
    have hr := seqRatioQ_bounds es (joinSpace ((opTokens.drop i).take w))
    simp only [t3Inner]
    split_ifs with hlt hq hq
    · exact ⟨hr.1, hr.2⟩
    · exact ih _ hr.1 hr.2
    · exact ⟨h0, h1⟩
    · exact ih _ h0 h1

/-- The running best of the tier-3 outer loop stays in the unit
interval. -/
theorem t3Outer_bounds (opTokens : List Str) (es : Str) :
    ∀ (ws : List ℕ) (st : ℚ × Str), 0 ≤ st.1 → st.1 ≤ 1 →
      0 ≤ (t3Outer opTokens es ws st).1 ∧ (t3Outer opTokens es ws st).1 ≤ 1 := by
  intro ws
  induction ws with
  | nil =>
    intro st h0 h1
    exact ⟨h0, h1⟩
  | cons w ws ih =>
    intro st h0 h1
    have hI := t3Inner_bounds opTokens es w (List.range (opTokens.length + 1 - w)) st h0 h1
    simp only [t3Outer]
    rcases hsplit : t3Inner opTokens es w (List.range (opTokens.length + 1 - w)) st
      with ⟨st', flag⟩
    rw [hsplit] at hI
    cases flag with
    | true => exact hI
    | false => exact ih st' hI.1 hI.2

/-- The best tier-3 fuzzy ratio is between 0 and 1. -/
theorem tier3_bounds (opTokens : List Str) (excerpt : Str) :
    0 ≤ (tier3_fuzzy_match opTokens excerpt).1 ∧
      (tier3_fuzzy_match opTokens excerpt).1 ≤ 1 := by
  unfold tier3_fuzzy_match
  dsimp only
  split_ifs with he
  · exact ⟨le_refl 0, by norm_num⟩
  · exact t3Outer_bounds opTokens (joinSpace (tokenize (strip_brackets excerpt))) _
      (0, []) (le_refl 0) (by norm_num)

/-- C1 (amended): every result of the matching cascade has similarity
in the closed interval [0,1], and a similarity of exactly 1.0 forces
status `verified` or `likely_match` - tier 3 stores `round(ratio, 3)`,
which lifts any ratio of at least 0.9995 to 1.0, so a fuzzy
`likely_match` can also carry similarity 1.0 (realised by
`C1_counterexample`); ratios below the 0.92 threshold can never round
up to 1.0, so the sub-`likely_match` statuses are excluded. -/
theorem C1_similarity_bounds (op ex : Str) (len : ℕ) :
    0 ≤ (validate_excerpt op ex len).similarity ∧
      (validate_excerpt op ex len).similarity ≤ 1 ∧
      ((validate_excerpt op ex len).similarity = 1 →
        (validate_excerpt op ex len).status = "verified" ∨
          (validate_excerpt op ex len).status = "likely_match") := by
  cases h1 : tier1_normalized_substring (normalize_text op)
      (normalize_text (strip_brackets ex)) with
  | true =>
    simp only [validate_excerpt, h1]
    exact ⟨(by norm_num : (0 : ℚ) ≤ 1), le_refl (1 : ℚ), fun _ => Or.inl rfl⟩
  | false =>
    cases h2 : tier2_token_sequence (tokenize op) ex with
    | true =>
      simp only [validate_excerpt, h1, h2, Bool.false_eq_true, if_false]
      exact ⟨(by norm_num : (0 : ℚ) ≤ 1), le_refl (1 : ℚ), fun _ => Or.inl rfl⟩
    | false =>
      simp only [validate_excerpt, h1, h2, Bool.false_eq_true, if_false]
      have hbr := tier3_bounds (tokenize op) ex
      have hp := pyRound3_bounds _ hbr.1 hbr.2
      by_cases hge : mkRat 92 100 ≤ (tier3_fuzzy_match (tokenize op) ex).1
      · rw [if_pos hge]
        exact ⟨hp.1, hp.2, fun _ => Or.inr rfl⟩
      · rw [if_neg hge]
        have hlt1 : pyRound3 (tier3_fuzzy_match (tokenize op) ex).1 < 1 :=
          pyRound3_lt_one _ (not_le.mp hge)
        by_cases hmid : mkRat 85 100 ≤ (tier3_fuzzy_match (tokenize op) ex).1
        · rw [if_pos hmid]
          exact ⟨hp.1, hp.2, fun hs => absurd hs (ne_of_lt hlt1)⟩
        · rw [if_neg hmid]
          by_cases hlen : 49500 ≤ len
          · rw [if_pos hlen]
            exact ⟨hp.1, hp.2, fun hs => absurd hs (ne_of_lt hlt1)⟩
          · rw [if_neg hlen]
            exact ⟨hp.1, hp.2, fun hs => absurd hs (ne_of_lt hlt1)⟩

end VQ
